import Mathlib

/-!
Verification of the cevo command-engine core: a shallow embedding of
`parser_utils.c`, `ce_hash.h`/`ce_hash.c`, and `ce_dispatch.c` together with
theorems about the embedded functions.

Modelling conventions:
* C strings become `List Char`; a `NULL` string pointer becomes `none` in an
  `Option (List Char)` where the distinction matters (hash, dispatch entry).
  The scalar parsers' `NULL == s` / `NULL == out` guard paths (which just
  return `false`) are unrepresentable here and therefore dropped.
* A C output parameter `T *out` becomes explicit state passing: each parser
  takes the value currently stored at the destination and returns the pair
  (return value, value stored at the destination afterwards), mirroring that
  the C code stores to `*out` only at its single final assignment.
* Machine integers are `Nat`/`Int` with explicit bounds; the digit-by-digit
  guards of the C code make every intermediate fit its C type, and where the
  C casts matter (DJB2 wraparound) an explicit `% 2 ^ 32` appears.
* Byte buffers become `List Nat`; a pointer `buf + off` into a buffer becomes
  the pair of the buffer and the offset, and `buf[i] = v` becomes `List.set`.
-/

/-! ### Constants from `ce_types.h` and `ce_dispatch.c` -/

def MAX_TOKENS : Nat := 8

def MAX_ARG_CONTENT_SIZE : Nat := 64

def MAX_LINE_BUF_SIZE : Nat := 256

def ARG_OFFSET : Nat := 1

def MAX_PARSABLE_ARGUMENTS : Nat := MAX_TOKENS - ARG_OFFSET

def UINT8_MAX : Nat := 255

def UINT16_MAX : Nat := 65535

def UINT32_MAX : Nat := 4294967295

def UINT64_MAX : Nat := 18446744073709551615

/-- Model of the `IS_WHITESPACE` macro of `ce_dispatch.c`. -/
def is_ws (c : Char) : Bool :=
  c = ' ' || c = '\t' || c = '\r' || c = '\n'

/-- Negation of `is_ws`, used as the token-content predicate. -/
def not_ws (c : Char) : Bool := !(is_ws c)

/-! ### Internal helpers of `parser_utils.c` -/

/-- Model of `ascii_tolower`: converts `'A'`-`'Z'` to lowercase, everything
else unchanged (`c + ('a' - 'A')` is `c + 32`). -/
def ascii_tolower (c : Char) : Char :=
  if 'A' ≤ c ∧ c ≤ 'Z' then Char.ofNat (c.toNat + 32) else c

/-- Model of `ascii_to_digit`: the digit value of `'0'`-`'9'`, `none`
otherwise.  The C `NULL == out` guard is unrepresentable and dropped. -/
def ascii_to_digit (c : Char) : Option Nat :=
  if '0' ≤ c ∧ c ≤ '9' then some (c.toNat - 48) else none

/-- Model of `ascii_to_hex`: the 4-bit value of a hex digit (case-insensitive
via `ascii_tolower`), `none` otherwise. -/
def ascii_to_hex (c : Char) : Option Nat :=
  let lower := ascii_tolower c
  if '0' ≤ lower ∧ lower ≤ '9' then some (lower.toNat - 48)
  else if 'a' ≤ lower ∧ lower ≤ 'f' then some (10 + (lower.toNat - 97))
  else none

/-! ### Unsigned integer parsers

`parse_u8`/`parse_u16`/`parse_u32`/`parse_u64` share one loop body that
differs only in the `UINTn_MAX` bound (the C accumulator, `uint32_t` for the
8/16-bit parsers and `uint64_t` for the 32/64-bit ones, never wraps because
both guards run before the corresponding arithmetic, so `Nat` is exact). -/

/-- Shared digit loop of the unsigned parsers: for each character, reject a
non-digit, reject if `value > max / 10` (multiply would overflow), multiply,
reject if `digit > max - value` (add would overflow), add. -/
def parse_unsigned_loop (max : Nat) : List Char → Nat → Option Nat
  | [], value => some value
  | c :: cs, value =>
    match ascii_to_digit c with
    | none => none
    | some digit =>
      if max / 10 < value then none
      else
        let v := value * 10
        if max - v < digit then none
        else parse_unsigned_loop max cs (v + digit)

/-- Model of `parse_u8` (`parser_utils.c`): empty input rejected, then the
shared digit loop with bound `UINT8_MAX`; the destination is stored to only
on success. -/
def parse_u8 (s : List Char) (out : Nat) : Bool × Nat :=
  if s = [] then (false, out)
  else
    match parse_unsigned_loop UINT8_MAX s 0 with
    | some v => (true, v)
    | none => (false, out)

/-- Model of `parse_u16` (`parser_utils.c`). -/
def parse_u16 (s : List Char) (out : Nat) : Bool × Nat :=
  if s = [] then (false, out)
  else
    match parse_unsigned_loop UINT16_MAX s 0 with
    | some v => (true, v)
    | none => (false, out)

/-- Model of `parse_u32` (`parser_utils.c`). -/
def parse_u32 (s : List Char) (out : Nat) : Bool × Nat :=
  if s = [] then (false, out)
  else
    match parse_unsigned_loop UINT32_MAX s 0 with
    | some v => (true, v)
    | none => (false, out)

/-- Model of `parse_u64` (`parser_utils.c`). -/
def parse_u64 (s : List Char) (out : Nat) : Bool × Nat :=
  if s = [] then (false, out)
  else
    match parse_unsigned_loop UINT64_MAX s 0 with
    | some v => (true, v)
    | none => (false, out)

/-! ### Signed integer parsers -/

/-- Model of the leading-sign scan shared by `parse_i32` and `parse_i64`
(the C `if ('-' == *s) ... else if ('+' == *s) ...` chain): returns the
`negative` flag and the position after an optional single sign; on an empty
string `*s` is the terminator, which is neither sign. -/
def sign_split : List Char → Bool × List Char
  | [] => (false, [])
  | c :: rest =>
    if c = '-' then (true, rest)
    else if c = '+' then (false, rest)
    else (false, c :: rest)

/-- Model of `parse_i32` (`parser_utils.c`): strip one optional `'-'`/`'+'`,
reject a bare sign or empty rest, then run the digit loop with
`max_before_mul` = `INT32_MAX + 1` when negative and `INT32_MAX` otherwise;
the final store is `negative ? -(int32_t)value : (int32_t)value`, which for
the magnitudes the guards allow is the mathematical `±value`. -/
def parse_i32 (s : List Char) (out : Int) : Bool × Int :=
  let p := sign_split s
  if p.2 = [] then (false, out)
  else
    match parse_unsigned_loop (if p.1 then 2 ^ 31 else 2 ^ 31 - 1) p.2 0 with
    | some v => (true, if p.1 then -(v : Int) else (v : Int))
    | none => (false, out)

/-- Model of `parse_i64` (`parser_utils.c`), same shape as `parse_i32` with
the 64-bit bounds. -/
def parse_i64 (s : List Char) (out : Int) : Bool × Int :=
  let p := sign_split s
  if p.2 = [] then (false, out)
  else
    match parse_unsigned_loop (if p.1 then 2 ^ 63 else 2 ^ 63 - 1) p.2 0 with
    | some v => (true, if p.1 then -(v : Int) else (v : Int))
    | none => (false, out)

/-- Model of `parse_i8` (`parser_utils.c`): parse into a 32-bit temporary
(initialised to 0), then range-check into `[-128, 127]`. -/
def parse_i8 (s : List Char) (out : Int) : Bool × Int :=
  let r := parse_i32 s 0
  if !r.1 then (false, out)
  else if r.2 < -128 ∨ 127 < r.2 then (false, out)
  else (true, r.2)

/-- Model of `parse_i16` (`parser_utils.c`): parse into a 32-bit temporary
(initialised to 0), then range-check into `[-32768, 32767]`. -/
def parse_i16 (s : List Char) (out : Int) : Bool × Int :=
  let r := parse_i32 s 0
  if !r.1 then (false, out)
  else if r.2 < -32768 ∨ 32767 < r.2 then (false, out)
  else (true, r.2)

/-! ### Boolean parser -/

/-- Model of the character-by-character case-insensitive literal comparison
loops of `parse_boolean_token`: the C loop walks the literal until the first
mismatch of `ascii_tolower(token[i])` against the literal and then requires
both the literal and the token to have ended together. -/
def ci_match : List Char → List Char → Bool
  | [], [] => true
  | t :: ts, l :: ls => if ascii_tolower t = l then ci_match ts ls else false
  | _, _ => false

/-- Model of `parse_boolean_token` (`parser_utils.c`): case-insensitive
`"true"`/`"false"`, then exact `"1"`/`"0"`; the destination is stored to only
in the four success branches. -/
def parse_boolean_token (token : List Char) (out_b : Bool) : Bool × Bool :=
  if ci_match token ['t', 'r', 'u', 'e'] then (true, true)
  else if ci_match token ['f', 'a', 'l', 's', 'e'] then (true, false)
  else if token = ['1'] then (true, true)
  else if token = ['0'] then (true, false)
  else (false, out_b)

/-! ### Hex string parser -/

/-- Write a list of byte values into `buf` at consecutive indices starting at
`off` (each C store `out_buf[i] = v` is a `List.set`; a store past the end of
the modelled buffer — an out-of-bounds write in C — is a no-op here). -/
def write_list (buf : List Nat) (off : Nat) : List Nat → List Nat
  | [] => buf
  | v :: vs => write_list (buf.set off v) (off + 1) vs

/-- Model of the conversion loop of `parse_hex_string`: consume the input two
characters at a time (the C loop runs `i < len >> 1`, so a trailing odd
character — excluded anyway by the even-length check before the loop — is
never read); the returned list is the sequence of bytes the loop stored
before returning, in store order, each formed as high nibble `<< 4` or-ed
with the low nibble. -/
def hex_loop : List Char → List Nat → Bool × List Nat
  | [], acc => (true, acc)
  | [_], acc => (true, acc)
  | c1 :: c2 :: rest, acc =>
    match ascii_to_hex c1 with
    | none => (false, acc)
    | some hi =>
      match ascii_to_hex c2 with
      | none => (false, acc)
      | some lo => hex_loop rest (acc ++ [16 * hi + lo])

/-- Model of `parse_hex_string` (`parser_utils.c`).  Arguments: the input
string, the buffer the output pointer points into, the offset of the output
pointer within that buffer (`out_buf` in C is `buffer + offset`), `max_len`,
and the value currently stored at `*out_len`.  Checks in source order:
reject empty input, reject odd length, reject `len / 2 > max_len`; then the
conversion loop stores bytes as it goes (also on paths that later fail), and
`*out_len` is stored only after the loop fully succeeds. -/
def parse_hex_string (s : List Char) (buf : List Nat) (off max_len out_len : Nat) :
    Bool × List Nat × Nat :=
  let len := s.length
  if len = 0 then (false, buf, out_len)
  else if len % 2 = 1 then (false, buf, out_len)
  else if max_len < len / 2 then (false, buf, out_len)
  else
    let r := hex_loop s []
    let buf' := write_list buf off r.2
    if r.1 then (true, buf', len / 2) else (false, buf', out_len)

/-! ### Hash (`ce_hash.c`) -/

/-- Model of `ce_hash_calculate`: `NULL` input returns 0; otherwise DJB2 with
seed 5381 and per-byte update `hash = ((hash << 5) + hash) + c`, i.e.
`hash * 33 + c`, in `uint32_t` wraparound arithmetic.  Characters are taken
at their code-point value, which coincides with the C byte for the ASCII
command names the engine hashes. -/
def ce_hash_calculate : Option (List Char) → Nat
  | none => 0
  | some s => s.foldl (fun h c => (h * 33 + c.toNat) % 2 ^ 32) 5381

/-! ### Tokenizer (`parse_line_to_tokens` in `ce_dispatch.c`)

The C tokenizer stores *pointers* into the line buffer and terminates tokens
by overwriting whitespace with `'\0'`; a recorded token therefore always
reads back as the maximal whitespace-free run starting at its pointer (for a
token completed inside the main loop the terminator is the whitespace byte
the loop zeroes; for a token cut short by the `MAX_TOKENS` cap it is the
first byte of the trailing-whitespace run zeroed after the loop, and in the
remaining case — more content after the cap — the call fails and the tokens
are discarded).  The model therefore records `c :: takeWhile not_ws rest`
when a token starts at `c`. -/

/-- Model of the main scan loop of `parse_line_to_tokens`: runs while input
remains and `count < MAX_TOKENS`; whitespace ends the current token,
a non-whitespace character outside a token starts (and records) a new one.
Returns the recorded tokens, the rest of the input at loop exit, the
`in_token` flag, and the final count. -/
def scan_loop : List Char → Nat → Bool → List (List Char) →
    List (List Char) × List Char × Bool × Nat
  | [], count, in_tok, acc => (acc, [], in_tok, count)
  | c :: rest, count, in_tok, acc =>
    if MAX_TOKENS ≤ count then (acc, c :: rest, in_tok, count)
    else if is_ws c then scan_loop rest count false acc
    else if in_tok then scan_loop rest count in_tok acc
    else scan_loop rest (count + 1) true (acc ++ [c :: rest.takeWhile not_ws])

/-- Model of the epilogue of `parse_line_to_tokens`: if the loop stopped at
the cap while inside a token, skip the rest of that token; then skip (and
zero) trailing whitespace; fail iff the cap was reached and non-whitespace
content remains. -/
def tokens_finish (r : List (List Char) × List Char × Bool × Nat) :
    Option (List (List Char)) :=
  let rest1 := if r.2.2.1 ∧ r.2.2.2 = MAX_TOKENS then r.2.1.dropWhile not_ws else r.2.1
  let rest2 := rest1.dropWhile is_ws
  if r.2.2.2 = MAX_TOKENS ∧ rest2 ≠ [] then none else some r.1

/-- Model of `parse_line_to_tokens` (`ce_dispatch.c`): `none` is the `false`
return (a `NULL` argument or the too-many-tokens failure), `some ts` the
successful token list (whose length is the stored `*tokens_count`). -/
def parse_line_to_tokens : Option (List Char) → Option (List (List Char))
  | none => none
  | some line => tokens_finish (scan_loop line 0 false [])

/-! ### Specification-side auxiliary functions

These are *not* translations of C code; they are the independent reference
functions the theorems compare the translations against. -/

/-- Reference predicate: an ASCII decimal digit. -/
def is_dec_digit (c : Char) : Bool := '0' ≤ c ∧ c ≤ '9'

/-- Reference function: numeric value of a decimal digit string (arbitrary
for non-digit characters; the theorems guard with `is_dec_digit`). -/
def dec_value (s : List Char) : Nat :=
  s.foldl (fun a c => 10 * a + (c.toNat - 48)) 0

/-- Reference fold with an explicit accumulator, used to state the loop
invariant of `parse_unsigned_loop`. -/
def dec_fold (acc : Nat) (s : List Char) : Nat :=
  s.foldl (fun a c => 10 * a + (c.toNat - 48)) acc

/-- Reference function for the signed grammar: an optional single leading
sign (via `sign_split`, which is the grammar's sign rule), then one or more
decimal digits; yields the signed value without any range restriction. -/
def signed_value (s : List Char) : Option Int :=
  let p := sign_split s
  if p.2 ≠ [] ∧ (∀ c ∈ p.2, is_dec_digit c = true) then
    some (if p.1 then -(dec_value p.2 : Int) else (dec_value p.2 : Int))
  else none

/-- Reference function: decode a hex string pairwise, `none` on odd length or
any non-hex character, otherwise the byte values (high nibble first). -/
def hex_pair_values : List Char → Option (List Nat)
  | [] => some []
  | [_] => none
  | c1 :: c2 :: rest =>
    match ascii_to_hex c1, ascii_to_hex c2 with
    | some hi, some lo =>
      match hex_pair_values rest with
      | some bs => some ((16 * hi + lo) :: bs)
      | none => none
    | _, _ => none

/-- Reference function: the bytes of the maximal valid hex-pair prefix, i.e.
exactly what the conversion loop stores before it hits an invalid
character. -/
def hex_prefix_bytes : List Char → List Nat
  | [] => []
  | [_] => []
  | c1 :: c2 :: rest =>
    match ascii_to_hex c1, ascii_to_hex c2 with
    | some hi, some lo => (16 * hi + lo) :: hex_prefix_bytes rest
    | _, _ => []

/-- Helper bound: `dropWhile` never lengthens a list. -/
theorem dropWhile_length_le (p : Char → Bool) (l : List Char) :
    (l.dropWhile p).length ≤ l.length := by
  induction l with
  | nil => simp
  | cons c rest ih =>
    by_cases h : p c
    · simpa [List.dropWhile_cons, h] using Nat.le_succ_of_le ih
    · simp [List.dropWhile_cons, h]

/-- Reference function: the whitespace-separated words of a line, each word a
maximal run of non-whitespace characters. -/
def ws_words : List Char → List (List Char)
  | [] => []
  | c :: rest =>
    if is_ws c then ws_words rest
    else (c :: rest.takeWhile not_ws) :: ws_words (rest.dropWhile not_ws)
termination_by l => l.length
decreasing_by
  · simp only [List.length_cons]
    exact Nat.lt_succ_of_le (Nat.le_refl _)
  · simp only [List.length_cons]
    exact Nat.lt_succ_of_le (dropWhile_length_le not_ws rest)

/-! ### Dispatch layer (`ce_dispatch.c`, types from `ce_types.h`) -/

/-- Model of `ce_arg_type_et`. -/
inductive CeArgType where
  | uint8 | uint16 | uint32 | uint64
  | int8 | int16 | int32 | int64
  | boolean | string | uint8ptr
deriving DecidableEq

/-- Model of `ce_arg_value_ut`.  The union's active member becomes a
constructor; the `bytes_u8p` pointer into the scratch buffer becomes the pair
of its offset within the scratch buffer and the decoded byte count (the
pointer value `scratch->buffer + used` and the span the handler may read). -/
inductive CeArgValue where
  | u8 (v : Nat) | u16 (v : Nat) | u32 (v : Nat) | u64 (v : Nat)
  | i8 (v : Int) | i16 (v : Int) | i32 (v : Int) | i64 (v : Int)
  | b (v : Bool)
  | str (s : List Char)
  | bytes (off len : Nat)
deriving DecidableEq

/-- Model of `scratch_buffer_st`: the fixed 64-byte arena and its cursor. -/
structure Scratch where
  buffer : List Nat
  used : Nat
deriving DecidableEq

/-- Model of `ce_signature_st` without the handler pointer (the handler is
recovered by the external `ce_invoke_handler`, which the dispatch model takes
as a parameter).  The generated table guarantees `type_count_u8 =
types_e.length`; the model keeps both fields, like the C struct. -/
structure ce_signature_st where
  hash_u32 : Nat
  types_e : List CeArgType
  type_count_u8 : Nat

/-- Model of `validate_argument_count`: the argument count (token count minus
the command name, clamped at zero) must equal the signature's count. -/
def validate_argument_count (tokens_count : Nat) (sig : ce_signature_st) : Bool :=
  (if 0 < tokens_count then tokens_count - 1 else 0) = sig.type_count_u8

/-- Model of `lookup_signature_by_hash`: first match of a linear scan. -/
def lookup_signature_by_hash (table : List ce_signature_st) (hash : Nat) :
    Option ce_signature_st :=
  table.find? (fun sig => sig.hash_u32 = hash)

/-- Model of `parse_value_by_type`.  Scalar cases run the matching parser
with the destination `args_a[i]`, which `dispatch_command` zero-initialises
(`= {0}`), hence initial cell values `0`/`false`.  The string case borrows
the token.  The `TYPE_UINT8_PTR_e` case runs `parse_hex_string` with output
pointer `scratch->buffer + scratch->used` and — exactly as in the source —
`max_len = MAX_ARG_CONTENT_SIZE`, *not* the remaining capacity; on success
the value is the span starting at the old cursor and the cursor advances by
the decoded byte count.  On a hex failure the bytes already decoded have
still been stored through the output pointer, so the scratch buffer content
changes while the cursor does not. -/
def parse_value_by_type (ty : CeArgType) (token : List Char) (scratch : Scratch) :
    Option CeArgValue × Scratch :=
  match ty with
  | CeArgType.uint8 =>
    let r := parse_u8 token 0
    (if r.1 then some (CeArgValue.u8 r.2) else none, scratch)
  | CeArgType.uint16 =>
    let r := parse_u16 token 0
    (if r.1 then some (CeArgValue.u16 r.2) else none, scratch)
  | CeArgType.uint32 =>
    let r := parse_u32 token 0
    (if r.1 then some (CeArgValue.u32 r.2) else none, scratch)
  | CeArgType.uint64 =>
    let r := parse_u64 token 0
    (if r.1 then some (CeArgValue.u64 r.2) else none, scratch)
  | CeArgType.int8 =>
    let r := parse_i8 token 0
    (if r.1 then some (CeArgValue.i8 r.2) else none, scratch)
  | CeArgType.int16 =>
    let r := parse_i16 token 0
    (if r.1 then some (CeArgValue.i16 r.2) else none, scratch)
  | CeArgType.int32 =>
    let r := parse_i32 token 0
    (if r.1 then some (CeArgValue.i32 r.2) else none, scratch)
  | CeArgType.int64 =>
    let r := parse_i64 token 0
    (if r.1 then some (CeArgValue.i64 r.2) else none, scratch)
  | CeArgType.boolean =>
    let r := parse_boolean_token token false
    (if r.1 then some (CeArgValue.b r.2) else none, scratch)
  | CeArgType.string => (some (CeArgValue.str token), scratch)
  | CeArgType.uint8ptr =>
    let r := parse_hex_string token scratch.buffer scratch.used MAX_ARG_CONTENT_SIZE 0
    if r.1 then
      (some (CeArgValue.bytes scratch.used r.2.2),
        { buffer := r.2.1, used := scratch.used + r.2.2 })
    else (none, { buffer := r.2.1, used := scratch.used })

/-- Model of the loop of `parse_arguments`: argument `i` is parsed from token
`i + ARG_OFFSET` according to type `i`; a missing (`NULL`) token or a parser
failure aborts the loop.  The `for` loop over `i < type_count_u8` indexing
`types_e[i]` becomes structural recursion over the type list (the caller
passes `types_e` truncated to `type_count_u8`). -/
def parse_args_loop (tokens : List (List Char)) :
    List CeArgType → Nat → Scratch → List CeArgValue →
    Option (List CeArgValue) × Scratch
  | [], _, scratch, acc => (some acc, scratch)
  | ty :: tys, i, scratch, acc =>
    match tokens.get? (i + ARG_OFFSET) with
    | none => (none, scratch)
    | some tok =>
      match parse_value_by_type ty tok scratch with
      | (none, scratch') => (none, scratch')
      | (some v, scratch') => parse_args_loop tokens tys (i + 1) scratch' (acc ++ [v])

/-- Model of `parse_arguments`: reject more declared arguments than
`MAX_PARSABLE_ARGUMENTS`, then run the per-argument loop. -/
def parse_arguments (sig : ce_signature_st) (tokens : List (List Char))
    (scratch : Scratch) : Option (List CeArgValue) × Scratch :=
  if MAX_PARSABLE_ARGUMENTS < sig.type_count_u8 then (none, scratch)
  else parse_args_loop tokens (sig.types_e.take sig.type_count_u8) 0 scratch []

/-- Model of `dispatch_command`: fresh zeroed scratch buffer per call, parse
all arguments, then call the external invocation collaborator `invoke`
(`ce_invoke_handler`).  The result also records the argument vectors of the
invocations performed (so the theorems can talk about handler calls) and the
final scratch state. -/
def dispatch_command (invoke : ce_signature_st → List CeArgValue → Bool)
    (sig : ce_signature_st) (tokens : List (List Char)) :
    (Bool × List (List CeArgValue)) × Scratch :=
  let scratch0 : Scratch := { buffer := List.replicate MAX_ARG_CONTENT_SIZE 0, used := 0 }
  match parse_arguments sig tokens scratch0 with
  | (none, scratch') => ((false, []), scratch')
  | (some args, scratch') => ((invoke sig args, [args]), scratch')

/-- Model of `ce_dispatch_from_line`, additionally exposing the final scratch
state (dropped by `ce_dispatch_from_line` itself, used by the memory model).
Steps in source order: `NULL` check, length check against
`MAX_LINE_BUF_SIZE`, copy into the local buffer (`strncpy` of a line already
checked shorter than the buffer copies it verbatim), tokenize, reject zero
tokens, hash token 0, linear table lookup, arity check, then
`dispatch_command`.  Every failure returns `false` with no invocation. -/
def ce_dispatch_core (table : List ce_signature_st)
    (invoke : ce_signature_st → List CeArgValue → Bool)
    (line : Option (List Char)) : (Bool × List (List CeArgValue)) × Scratch :=
  let scratch0 : Scratch := { buffer := List.replicate MAX_ARG_CONTENT_SIZE 0, used := 0 }
  match line with
  | none => ((false, []), scratch0)
  | some line_str =>
    if MAX_LINE_BUF_SIZE ≤ line_str.length then ((false, []), scratch0)
    else
      match parse_line_to_tokens (some line_str) with
      | none => ((false, []), scratch0)
      | some tokens =>
        match tokens with
        | [] => ((false, []), scratch0)
        | t0 :: _ =>
          match lookup_signature_by_hash table (ce_hash_calculate (some t0)) with
          | none => ((false, []), scratch0)
          | some sig =>
            if !validate_argument_count tokens.length sig then ((false, []), scratch0)
            else dispatch_command invoke sig tokens

/-- Model of `ce_dispatch_from_line` (`ce_dispatch.c`): the boolean result,
paired with the argument vectors of the handler invocations performed. -/
def ce_dispatch_from_line (table : List ce_signature_st)
    (invoke : ce_signature_st → List CeArgValue → Bool)
    (line : Option (List Char)) : Bool × List (List CeArgValue) :=
  (ce_dispatch_core table invoke line).1

/-! ### Memory model of one dispatch call

`ce_dispatch_from_line` receives the line through a `const char *` and never
stores through it; the stores the call issues target the 256-byte stack
array `line_buf` (the `= {0}` initialisation, the `strncpy` copy, and the
tokenizer's in-place zeroing of whitespace) and — through the possibly
out-of-bounds pointer `scratch->buffer + scratch->used` — bytes *relative to*
the 64-byte scratch buffer inside `dispatch_command`.  The model lays the
call's memory out as one byte-addressed map: the caller's line buffer lives
below address `LINE_BUF_BASE`, `line_buf` at `LINE_BUF_BASE`, the scratch
buffer at `SCRATCH_BASE`.  Every hex-decode store is performed at its
computed address `SCRATCH_BASE + used + i`, *unclamped*: when the cumulative
decoded bytes exceed `MAX_ARG_CONTENT_SIZE` the store lands past the end of
the scratch object, exactly as the C program stores past `scratch->buffer`
into adjacent stack memory (undefined behavior); the model does not erase
such stores, and additionally reports whether any decode escaped the
buffer.  Within the line-buffer region the model writes the region's final
contents in one pass; the tokenizer's whitespace zeroing is widened to every
whitespace byte of the copy, a superset of the bytes the C scan zeroes,
which only enlarges the modelled store set inside the `line_buf` region. -/

/-- Byte-addressed memory. -/
def Mem : Type := Nat → Nat

/-- Base address of the local `line_buf` array; the caller's buffer occupies
addresses below this. -/
def LINE_BUF_BASE : Nat := 256

/-- Base address of the local scratch buffer, whose object in C spans
exactly `MAX_ARG_CONTENT_SIZE` bytes from here. -/
def SCRATCH_BASE : Nat := 512

/-- Store a list of bytes at consecutive addresses. -/
def mstores (m : Mem) (a : Nat) : List Nat → Mem
  | [] => m
  | v :: vs => mstores (fun x => if x = a then v else m x) (a + 1) vs

/-- Contents of `line_buf` after the copy and the (widened) in-place
tokenization: the line's bytes with whitespace zeroed, then the zero fill of
the `= {0}` initialisation. -/
def line_buf_bytes (l : List Char) : List Nat :=
  (l.map fun c => if is_ws c then 0 else c.toNat) ++
    List.replicate (MAX_LINE_BUF_SIZE - l.length) 0

/-- The prelude checks of `parse_hex_string` (reject empty, reject odd
length, reject `len / 2 > max_len` with the `MAX_ARG_CONTENT_SIZE` bound the
dispatcher passes): only when all pass does its conversion loop run and
store bytes. -/
def hex_checks_pass (tok : List Char) : Bool :=
  ¬(tok.length = 0) ∧ ¬(tok.length % 2 = 1) ∧ tok.length / 2 ≤ MAX_ARG_CONTENT_SIZE

/-- Memory-instrumented argument loop: identical control flow and values to
`parse_args_loop` (all decisions are delegated to `parse_value_by_type`),
additionally performing, for each binary argument whose conversion loop
runs, the stores of that loop at their absolute addresses
`SCRATCH_BASE + used + i` — unclamped, including out-of-bounds ones — and
conjoining into the final flag whether each decode's stored bytes stayed
within the scratch buffer's capacity. -/
def parse_args_loop_mem (tokens : List (List Char)) :
    List CeArgType → Nat → Scratch → List CeArgValue → Mem → Bool →
    (Option (List CeArgValue) × Scratch) × Mem × Bool
  | [], _, scratch, acc, m, ok => ((some acc, scratch), m, ok)
  | ty :: tys, i, scratch, acc, m, ok =>
    match tokens.get? (i + ARG_OFFSET) with
    | none => ((none, scratch), m, ok)
    | some tok =>
      let bytes : List Nat :=
        if ty = CeArgType.uint8ptr ∧ hex_checks_pass tok = true
        then (hex_loop tok []).2 else []
      let m2 := mstores m (SCRATCH_BASE + scratch.used) bytes
      let ok2 := ok && (scratch.used + bytes.length ≤ MAX_ARG_CONTENT_SIZE)
      match parse_value_by_type ty tok scratch with
      | (none, scratch2) => ((none, scratch2), m2, ok2)
      | (some v, scratch2) =>
        parse_args_loop_mem tokens tys (i + 1) scratch2 (acc ++ [v]) m2 ok2

/-- Memory-instrumented `parse_arguments`. -/
def parse_arguments_mem (sig : ce_signature_st) (tokens : List (List Char))
    (scratch : Scratch) (m : Mem) :
    (Option (List CeArgValue) × Scratch) × Mem × Bool :=
  if MAX_PARSABLE_ARGUMENTS < sig.type_count_u8 then ((none, scratch), m, true)
  else parse_args_loop_mem tokens (sig.types_e.take sig.type_count_u8) 0 scratch [] m true

/-- Memory-instrumented `dispatch_command`. -/
def dispatch_command_mem (invoke : ce_signature_st → List CeArgValue → Bool)
    (sig : ce_signature_st) (tokens : List (List Char)) (m : Mem) :
    (Bool × List (List CeArgValue)) × Mem × Bool :=
  let scratch0 : Scratch := { buffer := List.replicate MAX_ARG_CONTENT_SIZE 0, used := 0 }
  match parse_arguments_mem sig tokens scratch0 m with
  | ((none, _), m2, ok) => ((false, []), m2, ok)
  | ((some args, _), m2, ok) => ((invoke sig args, [args]), m2, ok)

/-- Model of one `ce_dispatch_from_line` call as a memory transformer: the
local `line_buf` is zero-initialised on entry; on the non-`NULL`, not
over-length path the copy and tokenization write the line-buffer region and
argument parsing performs its stores at their computed (possibly
out-of-bounds) scratch addresses.  The final flag is `true` exactly when
every hex decode's stored bytes stayed within the scratch buffer — on runs
hitting the C1 overflow it is `false` and the memory holds a store past the
scratch object. -/
def ce_dispatch_from_line_mem (table : List ce_signature_st)
    (invoke : ce_signature_st → List CeArgValue → Bool)
    (line : Option (List Char)) (m : Mem) :
    (Bool × List (List CeArgValue)) × Mem × Bool :=
  match line with
  | none => ((false, []), m, true)
  | some l =>
    let m0 := mstores m LINE_BUF_BASE (List.replicate MAX_LINE_BUF_SIZE 0)
    if MAX_LINE_BUF_SIZE ≤ l.length then ((false, []), m0, true)
    else
      let m1 := mstores m0 LINE_BUF_BASE (line_buf_bytes l)
      match parse_line_to_tokens (some l) with
      | none => ((false, []), m1, true)
      | some tokens =>
        match tokens with
        | [] => ((false, []), m1, true)
        | t0 :: _ =>
          match lookup_signature_by_hash table (ce_hash_calculate (some t0)) with
          | none => ((false, []), m1, true)
          | some sig =>
            if !validate_argument_count tokens.length sig then ((false, []), m1, true)
            else dispatch_command_mem invoke sig tokens m1

/-! ### Theorems -/

/-- Helper: the DJB2 fold stays below `2 ^ 32` from any in-range seed. -/
theorem hash_fold_lt (s : List Char) :
    ∀ h : Nat, h < 2 ^ 32 →
      s.foldl (fun h c => (h * 33 + c.toNat) % 2 ^ 32) h < 2 ^ 32 := by
  induction s with
  | nil => intro h hh; simpa using hh
  | cons c cs ih =>
    intro h hh
    simpa using ih ((h * 33 + c.toNat) % 2 ^ 32) (Nat.mod_lt _ (by norm_num))

/-- C3: the hash is total and deterministic by construction (it is a function
on all of `Option (List Char)`); a null input maps to 0, the empty string to
the DJB2 seed 5381, every digest fits in 32 bits, and appending one byte
updates the digest by `hash * 33 + byte` with 32-bit unsigned wraparound —
together these pin the function to classic DJB2. -/
theorem cevo_c3_hash_is_djb2 :
    ce_hash_calculate none = 0 ∧
    ce_hash_calculate (some []) = 5381 ∧
    (∀ s : List Char, ce_hash_calculate (some s) < 2 ^ 32) ∧
    (∀ (s : List Char) (c : Char),
      ce_hash_calculate (some (s ++ [c])) =
        (ce_hash_calculate (some s) * 33 + c.toNat) % 2 ^ 32) := by
  refine ⟨rfl, rfl, ?_, ?_⟩
  · intro s
    exact hash_fold_lt s 5381 (by norm_num)
  · intro s c
    simp [ce_hash_calculate, List.foldl_append]

/-- Helper: one step of the decimal fold. -/
theorem dec_fold_cons (c : Char) (cs : List Char) (a : Nat) :
    dec_fold a (c :: cs) = dec_fold (10 * a + (c.toNat - 48)) cs := rfl

/-- Helper: the decimal fold never decreases below its seed. -/
theorem dec_fold_ge (s : List Char) : ∀ a : Nat, a ≤ dec_fold a s := by
  induction s with
  | nil => intro a; simp [dec_fold]
  | cons c cs ih =>
    intro a
    calc a ≤ 10 * a + (c.toNat - 48) := by omega
      _ ≤ dec_fold (10 * a + (c.toNat - 48)) cs := ih _
      _ = dec_fold a (c :: cs) := (dec_fold_cons c cs a).symm

/-- Loop invariant of `parse_unsigned_loop`: from an in-range accumulator the
loop succeeds exactly on all-digit input whose accumulated value stays within
the bound, and then returns that value — i.e. the pre-multiply/pre-add guards
are equivalent to a bound on the final mathematical value. -/
theorem parse_unsigned_loop_spec (max : Nat) (s : List Char) :
    ∀ acc : Nat, acc ≤ max →
      parse_unsigned_loop max s acc =
        if (∀ c ∈ s, is_dec_digit c = true) ∧ dec_fold acc s ≤ max
        then some (dec_fold acc s) else none := by
  induction s with
  | nil =>
    intro acc hacc
    simp [parse_unsigned_loop, dec_fold, hacc]
  | cons c cs ih =>
    intro acc hacc
    by_cases hd : '0' ≤ c ∧ c ≤ '9'
    · have hsome : ascii_to_digit c = some (c.toNat - 48) := by
        simp [ascii_to_digit, hd]
      have hdd : is_dec_digit c = true := by
        simp [is_dec_digit, hd]
      by_cases hmul : max / 10 < acc
      · have h10 : max < acc * 10 := (Nat.div_lt_iff_lt_mul (by norm_num)).mp hmul
        have hge : 10 * acc + (c.toNat - 48) ≤ dec_fold acc (c :: cs) := by
          rw [dec_fold_cons]; exact dec_fold_ge cs _
        have hbig : max < dec_fold acc (c :: cs) := by omega
        rw [if_neg (fun hc => absurd hc.2 (Nat.not_le.mpr hbig))]
        simp [parse_unsigned_loop, hsome, hmul]
      · have hv : acc * 10 ≤ max :=
          (Nat.le_div_iff_mul_le (by norm_num)).mp (Nat.not_lt.mp hmul)
        by_cases hadd : max - acc * 10 < c.toNat - 48
        · have hge : 10 * acc + (c.toNat - 48) ≤ dec_fold acc (c :: cs) := by
            rw [dec_fold_cons]; exact dec_fold_ge cs _
          have hbig : max < dec_fold acc (c :: cs) := by omega
          rw [if_neg (fun hc => absurd hc.2 (Nat.not_le.mpr hbig))]
          simp [parse_unsigned_loop, hsome, hmul, hadd]
        · have hstep : acc * 10 + (c.toNat - 48) ≤ max := by omega
          have hloop : parse_unsigned_loop max (c :: cs) acc =
              parse_unsigned_loop max cs (acc * 10 + (c.toNat - 48)) := by
            simp [parse_unsigned_loop, hsome, hmul, hadd]
          rw [hloop, ih _ hstep, dec_fold_cons]
          have hcomm : acc * 10 + (c.toNat - 48) = 10 * acc + (c.toNat - 48) := by ring
          rw [hcomm]
          by_cases hrest : (∀ x ∈ cs, is_dec_digit x = true) ∧
              dec_fold (10 * acc + (c.toNat - 48)) cs ≤ max
          · rw [if_pos hrest, if_pos ⟨fun x hx => by
              rcases List.mem_cons.mp hx with h | h
              · rw [h]; exact hdd
              · exact hrest.1 x h, hrest.2⟩]
          · rw [if_neg hrest, if_neg (fun hc =>
              hrest ⟨fun x hx => hc.1 x (List.mem_cons_of_mem c hx), hc.2⟩)]
    · have hnone : ascii_to_digit c = none := by
        simp [ascii_to_digit, hd]
      have hdd : is_dec_digit c = false := by
        simp [is_dec_digit, hd]
      rw [if_neg (fun hc => by
        have := hc.1 c (List.mem_cons_self c cs)
        rw [hdd] at this; exact Bool.false_ne_true this)]
      simp [parse_unsigned_loop, hnone]

/-- Generic functional characterization of the four unsigned parsers. -/
theorem parse_u_eq (max : Nat) (s : List Char) (out : Nat) :
    (if s = [] then ((false : Bool), out)
     else match parse_unsigned_loop max s 0 with
       | some v => (true, v)
       | none => (false, out)) =
      if s ≠ [] ∧ (∀ c ∈ s, is_dec_digit c = true) ∧ dec_value s ≤ max
      then (true, dec_value s) else (false, out) := by
  by_cases hs : s = []
  · simp [hs]
  · rw [parse_unsigned_loop_spec max s 0 (Nat.zero_le max)]
    have hdv : dec_fold 0 s = dec_value s := rfl
    by_cases hc : (∀ c ∈ s, is_dec_digit c = true) ∧ dec_fold 0 s ≤ max
    · rw [if_neg hs, if_pos hc, if_pos ⟨hs, hc.1, hdv ▸ hc.2⟩, hdv]
    · rw [if_neg hs, if_neg hc, if_neg (fun h => hc ⟨h.2.1, hdv ▸ h.2.2⟩)]

/-- Functional characterization of `parse_u8`. -/
theorem parse_u8_eq (s : List Char) (out : Nat) :
    parse_u8 s out =
      if s ≠ [] ∧ (∀ c ∈ s, is_dec_digit c = true) ∧ dec_value s ≤ UINT8_MAX
      then (true, dec_value s) else (false, out) := by
  unfold parse_u8; exact parse_u_eq UINT8_MAX s out

/-- Functional characterization of `parse_u16`. -/
theorem parse_u16_eq (s : List Char) (out : Nat) :
    parse_u16 s out =
      if s ≠ [] ∧ (∀ c ∈ s, is_dec_digit c = true) ∧ dec_value s ≤ UINT16_MAX
      then (true, dec_value s) else (false, out) := by
  unfold parse_u16; exact parse_u_eq UINT16_MAX s out

/-- Functional characterization of `parse_u32`. -/
theorem parse_u32_eq (s : List Char) (out : Nat) :
    parse_u32 s out =
      if s ≠ [] ∧ (∀ c ∈ s, is_dec_digit c = true) ∧ dec_value s ≤ UINT32_MAX
      then (true, dec_value s) else (false, out) := by
  unfold parse_u32; exact parse_u_eq UINT32_MAX s out

/-- Functional characterization of `parse_u64`. -/
theorem parse_u64_eq (s : List Char) (out : Nat) :
    parse_u64 s out =
      if s ≠ [] ∧ (∀ c ∈ s, is_dec_digit c = true) ∧ dec_value s ≤ UINT64_MAX
      then (true, dec_value s) else (false, out) := by
  unfold parse_u64; exact parse_u_eq UINT64_MAX s out

/-- Generic functional characterization of `parse_i32`/`parse_i64`: success
exactly on the signed grammar with value in `[-m, m - 1]`. -/
theorem parse_s_eq (m : Nat) (hm : 1 ≤ m) (s : List Char) (out : Int) :
    (let p := sign_split s
     if p.2 = [] then ((false : Bool), out)
     else match parse_unsigned_loop (if p.1 then m else m - 1) p.2 0 with
       | some v => (true, if p.1 then -(v : Int) else (v : Int))
       | none => (false, out)) =
      (match signed_value s with
       | some v => if -(m : Int) ≤ v ∧ v ≤ (m : Int) - 1 then (true, v) else (false, out)
       | none => (false, out)) := by
  rcases hps : sign_split s with ⟨neg, s1⟩
  have hsv : signed_value s =
      (if s1 ≠ [] ∧ (∀ c ∈ s1, is_dec_digit c = true) then
        some (if neg then -(dec_value s1 : Int) else (dec_value s1 : Int))
      else none) := by
    simp only [signed_value, hps]
  simp only [hps, hsv]
  by_cases h1 : s1 = []
  · simp [h1]
  · rw [parse_unsigned_loop_spec _ s1 0 (Nat.zero_le _)]
    have hdv : dec_fold 0 s1 = dec_value s1 := rfl
    by_cases hd : ∀ c ∈ s1, is_dec_digit c = true
    · rw [if_pos (show s1 ≠ [] ∧ (∀ c ∈ s1, is_dec_digit c = true) from ⟨h1, hd⟩)]
      cases neg with
      | true =>
        by_cases hv : dec_value s1 ≤ m
        · rw [if_neg h1, if_pos (⟨hd, hdv ▸ hv⟩ :
            (∀ c ∈ s1, is_dec_digit c = true) ∧
              dec_fold 0 s1 ≤ if (true : Bool) then m else m - 1), hdv]
          show ((true, -(dec_value s1 : Int)) : Bool × Int) =
            if -(m : Int) ≤ -(dec_value s1 : Int) ∧ -(dec_value s1 : Int) ≤ (m : Int) - 1
            then (true, -(dec_value s1 : Int)) else (false, out)
          rw [if_pos (by constructor <;> omega)]
        · rw [if_neg h1, if_neg (fun hc =>
            hv (hdv ▸ (hc : (∀ c ∈ s1, is_dec_digit c = true) ∧
              dec_fold 0 s1 ≤ if (true : Bool) then m else m - 1).2))]
          show ((false, out) : Bool × Int) =
            if -(m : Int) ≤ -(dec_value s1 : Int) ∧ -(dec_value s1 : Int) ≤ (m : Int) - 1
            then (true, -(dec_value s1 : Int)) else (false, out)
          rw [if_neg (by intro hc; omega)]
      | false =>
        by_cases hv : dec_value s1 ≤ m - 1
        · rw [if_neg h1, if_pos (⟨hd, hdv ▸ hv⟩ :
            (∀ c ∈ s1, is_dec_digit c = true) ∧
              dec_fold 0 s1 ≤ if (false : Bool) then m else m - 1), hdv]
          show ((true, (dec_value s1 : Int)) : Bool × Int) =
            if -(m : Int) ≤ (dec_value s1 : Int) ∧ (dec_value s1 : Int) ≤ (m : Int) - 1
            then (true, (dec_value s1 : Int)) else (false, out)
          rw [if_pos (by constructor <;> omega)]
        · rw [if_neg h1, if_neg (fun hc =>
            hv (hdv ▸ (hc : (∀ c ∈ s1, is_dec_digit c = true) ∧
              dec_fold 0 s1 ≤ if (false : Bool) then m else m - 1).2))]
          show ((false, out) : Bool × Int) =
            if -(m : Int) ≤ (dec_value s1 : Int) ∧ (dec_value s1 : Int) ≤ (m : Int) - 1
            then (true, (dec_value s1 : Int)) else (false, out)
          rw [if_neg (by intro hc; omega)]
    · rw [if_neg h1,
        if_neg (show ¬(s1 ≠ [] ∧ ∀ c ∈ s1, is_dec_digit c = true) from fun hc => hd hc.2),
        if_neg (show ¬((∀ c ∈ s1, is_dec_digit c = true) ∧
          dec_fold 0 s1 ≤ if neg = true then m else m - 1) from fun hc => hd hc.1)]

/-- Functional characterization of `parse_i32`. -/
theorem parse_i32_eq (s : List Char) (out : Int) :
    parse_i32 s out =
      (match signed_value s with
       | some v => if -(2 ^ 31 : Int) ≤ v ∧ v ≤ (2 ^ 31 : Int) - 1
                   then (true, v) else (false, out)
       | none => (false, out)) := by
  unfold parse_i32
  exact parse_s_eq (2 ^ 31) (by norm_num) s out

/-- Functional characterization of `parse_i64`. -/
theorem parse_i64_eq (s : List Char) (out : Int) :
    parse_i64 s out =
      (match signed_value s with
       | some v => if -(2 ^ 63 : Int) ≤ v ∧ v ≤ (2 ^ 63 : Int) - 1
                   then (true, v) else (false, out)
       | none => (false, out)) := by
  unfold parse_i64
  exact parse_s_eq (2 ^ 63) (by norm_num) s out

/-- Functional characterization of `parse_i8`: the 32-bit parse followed by
the range check collapses to the 8-bit range check. -/
theorem parse_i8_eq (s : List Char) (out : Int) :
    parse_i8 s out =
      (match signed_value s with
       | some v => if -128 ≤ v ∧ v ≤ 127 then (true, v) else (false, out)
       | none => (false, out)) := by
  unfold parse_i8
  rw [parse_i32_eq]
  cases hsv : signed_value s with
  | none => rfl
  | some v =>
    by_cases h32 : (-2147483648 : Int) ≤ v ∧ v ≤ (2147483647 : Int)
    · by_cases h8 : (-128 : Int) ≤ v ∧ v ≤ (127 : Int)
      · simp [h32, h8, show ¬(v < -128 ∨ 127 < v) by omega]
      · simp [h32, h8, show v < -128 ∨ 127 < v by omega]
    · have h8 : ¬((-128 : Int) ≤ v ∧ v ≤ (127 : Int)) := by omega
      simp [h32, h8]

/-- Functional characterization of `parse_i16`. -/
theorem parse_i16_eq (s : List Char) (out : Int) :
    parse_i16 s out =
      (match signed_value s with
       | some v => if -32768 ≤ v ∧ v ≤ 32767 then (true, v) else (false, out)
       | none => (false, out)) := by
  unfold parse_i16
  rw [parse_i32_eq]
  cases hsv : signed_value s with
  | none => rfl
  | some v =>
    by_cases h32 : (-2147483648 : Int) ≤ v ∧ v ≤ (2147483647 : Int)
    · by_cases h16 : (-32768 : Int) ≤ v ∧ v ≤ (32767 : Int)
      · simp [h32, h16, show ¬(v < -32768 ∨ 32767 < v) by omega]
      · simp [h32, h16, show v < -32768 ∨ 32767 < v by omega]
    · have h16 : ¬((-32768 : Int) ≤ v ∧ v ≤ (32767 : Int)) := by omega
      simp [h32, h16]

/-- C9: every scalar parser stores to the caller's destination only after the
whole token has validated; on any failing input the destination keeps its
previous value. -/
theorem cevo_c9_scalar_parsers_atomic :
    ∀ (s : List Char) (outn : Nat) (outi : Int) (outb : Bool),
      ((parse_u8 s outn).1 = false → (parse_u8 s outn).2 = outn) ∧
      ((parse_u16 s outn).1 = false → (parse_u16 s outn).2 = outn) ∧
      ((parse_u32 s outn).1 = false → (parse_u32 s outn).2 = outn) ∧
      ((parse_u64 s outn).1 = false → (parse_u64 s outn).2 = outn) ∧
      ((parse_i8 s outi).1 = false → (parse_i8 s outi).2 = outi) ∧
      ((parse_i16 s outi).1 = false → (parse_i16 s outi).2 = outi) ∧
      ((parse_i32 s outi).1 = false → (parse_i32 s outi).2 = outi) ∧
      ((parse_i64 s outi).1 = false → (parse_i64 s outi).2 = outi) ∧
      ((parse_boolean_token s outb).1 = false → (parse_boolean_token s outb).2 = outb) := by
  intro s outn outi outb
  refine ⟨?_, ?_, ?_, ?_, ?_, ?_, ?_, ?_, ?_⟩
  · intro h
    rw [parse_u8_eq] at h ⊢
    by_cases hc : s ≠ [] ∧ (∀ c ∈ s, is_dec_digit c = true) ∧ dec_value s ≤ UINT8_MAX
    · rw [if_pos hc] at h; simp at h
    · rw [if_neg hc]
  · intro h
    rw [parse_u16_eq] at h ⊢
    by_cases hc : s ≠ [] ∧ (∀ c ∈ s, is_dec_digit c = true) ∧ dec_value s ≤ UINT16_MAX
    · rw [if_pos hc] at h; simp at h
    · rw [if_neg hc]
  · intro h
    rw [parse_u32_eq] at h ⊢
    by_cases hc : s ≠ [] ∧ (∀ c ∈ s, is_dec_digit c = true) ∧ dec_value s ≤ UINT32_MAX
    · rw [if_pos hc] at h; simp at h
    · rw [if_neg hc]
  · intro h
    rw [parse_u64_eq] at h ⊢
    by_cases hc : s ≠ [] ∧ (∀ c ∈ s, is_dec_digit c = true) ∧ dec_value s ≤ UINT64_MAX
    · rw [if_pos hc] at h; simp at h
    · rw [if_neg hc]
  · intro h
    rw [parse_i8_eq] at h ⊢
    cases hsv : signed_value s with
    | none => simp
    | some v =>
      by_cases hr : -128 ≤ v ∧ v ≤ 127
      · simp [hsv, hr] at h
      · simp [hsv, hr]
  · intro h
    rw [parse_i16_eq] at h ⊢
    cases hsv : signed_value s with
    | none => simp
    | some v =>
      by_cases hr : -32768 ≤ v ∧ v ≤ 32767
      · simp [hsv, hr] at h
      · simp [hsv, hr]
  · intro h
    rw [parse_i32_eq] at h ⊢
    cases hsv : signed_value s with
    | none => simp
    | some v =>
      by_cases hr : (-2147483648 : Int) ≤ v ∧ v ≤ (2147483647 : Int)
      · simp [hsv, hr] at h
      · simp [hsv, hr]
  · intro h
    rw [parse_i64_eq] at h ⊢
    cases hsv : signed_value s with
    | none => simp
    | some v =>
      by_cases hr : (-9223372036854775808 : Int) ≤ v ∧ v ≤ (9223372036854775807 : Int)
      · simp [hsv, hr] at h
      · simp [hsv, hr]
  · intro h
    unfold parse_boolean_token at h ⊢
    split_ifs at h ⊢ <;> simp_all

/-- Witness for `cevo_c9_scalar_parsers_atomic` at the failing token `"x"`. -/
theorem cevo_c9_witness :
    (parse_u8 ['x'] 3).2 = 3 ∧ (parse_u16 ['x'] 3).2 = 3 ∧
    (parse_u32 ['x'] 3).2 = 3 ∧ (parse_u64 ['x'] 3).2 = 3 ∧
    (parse_i8 ['x'] (-5)).2 = -5 ∧ (parse_i16 ['x'] (-5)).2 = -5 ∧
    (parse_i32 ['x'] (-5)).2 = -5 ∧ (parse_i64 ['x'] (-5)).2 = -5 ∧
    (parse_boolean_token ['x'] true).2 = true := by
  have h := cevo_c9_scalar_parsers_atomic ['x'] 3 (-5) true
  exact ⟨h.1 (by decide), h.2.1 (by decide), h.2.2.1 (by decide),
    h.2.2.2.1 (by decide), h.2.2.2.2.1 (by decide), h.2.2.2.2.2.1 (by decide),
    h.2.2.2.2.2.2.1 (by decide), h.2.2.2.2.2.2.2.1 (by decide),
    h.2.2.2.2.2.2.2.2 (by decide)⟩

/-- C10: `parse_hex_string` is not atomic on failure — on `"0AZZ"` it fails
after already storing the decoded leading byte `0x0A` through the output
pointer — yet the reported length `*out_len` is stored only on full
success. -/
theorem cevo_c10_hex_partial_writes :
    (∀ (s : List Char) (buf : List Nat) (off ml L : Nat),
      (parse_hex_string s buf off ml L).1 = false →
        (parse_hex_string s buf off ml L).2.2 = L) ∧
    parse_hex_string ['0', 'A', 'Z', 'Z'] [0, 0] 0 64 7 = (false, [10, 0], 7) ∧
    (parse_hex_string ['0', 'A', 'Z', 'Z'] [0, 0] 0 64 7).2.1 ≠ [0, 0] := by
  refine ⟨?_, by decide, by decide⟩
  intro s buf off ml L h
  by_cases h0 : s.length = 0
  · simp [parse_hex_string, h0]
  · by_cases h1 : s.length % 2 = 1
    · simp [parse_hex_string, h0, h1]
    · by_cases h2 : ml < s.length / 2
      · simp [parse_hex_string, h0, h1, h2]
      · cases hr : (hex_loop s []).1 <;>
          simp [parse_hex_string, h0, h1, h2, hr] at h ⊢

/-- Witness for the universally quantified part of
`cevo_c10_hex_partial_writes` at the failing input `"0AZZ"`. -/
theorem cevo_c10_witness :
    (parse_hex_string ['0', 'A', 'Z', 'Z'] [0, 0] 0 64 7).2.2 = 7 :=
  cevo_c10_hex_partial_writes.1 ['0', 'A', 'Z', 'Z'] [0, 0] 0 64 7 (by decide)

/-- C4: each unsigned parser succeeds exactly on a non-empty all-digit string
whose value fits the width, returning that value (so leading zeros are
accepted and numerically ignored), and fails — leaving the destination
untouched — otherwise; the digit-by-digit guards are thus equivalent to the
`≤ T_MAX` bound on the final value, with no reliance on wraparound. -/
theorem cevo_c4_unsigned_parsers :
    ∀ (s : List Char) (out : Nat),
      (parse_u8 s out =
        if s ≠ [] ∧ (∀ c ∈ s, is_dec_digit c = true) ∧ dec_value s ≤ UINT8_MAX
        then (true, dec_value s) else (false, out)) ∧
      (parse_u16 s out =
        if s ≠ [] ∧ (∀ c ∈ s, is_dec_digit c = true) ∧ dec_value s ≤ UINT16_MAX
        then (true, dec_value s) else (false, out)) ∧
      (parse_u32 s out =
        if s ≠ [] ∧ (∀ c ∈ s, is_dec_digit c = true) ∧ dec_value s ≤ UINT32_MAX
        then (true, dec_value s) else (false, out)) ∧
      (parse_u64 s out =
        if s ≠ [] ∧ (∀ c ∈ s, is_dec_digit c = true) ∧ dec_value s ≤ UINT64_MAX
        then (true, dec_value s) else (false, out)) ∧
      parse_u8 ['0', '0', '1'] 0 = (true, 1) ∧
      parse_u8 ['2', '5', '5'] 0 = (true, 255) ∧
      parse_u8 ['2', '5', '6'] 0 = (false, 0) ∧
      parse_u64 ['1', '8', '4', '4', '6', '7', '4', '4', '0', '7', '3', '7',
        '0', '9', '5', '5', '1', '6', '1', '6'] 0 = (false, 0) :=
  fun s out =>
    ⟨parse_u8_eq s out, parse_u16_eq s out, parse_u32_eq s out, parse_u64_eq s out,
      by decide, by decide, by decide, by decide⟩

/-- C5: each signed parser succeeds exactly on an optional single sign
followed by at least one digit with the value inside the type's range
(rejecting a bare sign), returning that value; `parse_i8`/`parse_i16` are the
32-bit parse range-checked into the narrow range, and the asymmetric
magnitude bound makes the minimum (e.g. `INT32_MIN`) parse while
`INT32_MAX + 1` and `INT32_MIN - 1` fail. -/
theorem cevo_c5_signed_parsers :
    ∀ (s : List Char) (out : Int),
      (parse_i8 s out =
        (match signed_value s with
         | some v => if -128 ≤ v ∧ v ≤ 127 then (true, v) else (false, out)
         | none => (false, out))) ∧
      (parse_i16 s out =
        (match signed_value s with
         | some v => if -32768 ≤ v ∧ v ≤ 32767 then (true, v) else (false, out)
         | none => (false, out))) ∧
      (parse_i32 s out =
        (match signed_value s with
         | some v => if -(2 ^ 31 : Int) ≤ v ∧ v ≤ (2 ^ 31 : Int) - 1
                     then (true, v) else (false, out)
         | none => (false, out))) ∧
      (parse_i64 s out =
        (match signed_value s with
         | some v => if -(2 ^ 63 : Int) ≤ v ∧ v ≤ (2 ^ 63 : Int) - 1
                     then (true, v) else (false, out)
         | none => (false, out))) ∧
      parse_i32 ['-', '2', '1', '4', '7', '4', '8', '3', '6', '4', '8'] 0 =
        (true, -2147483648) ∧
      parse_i32 ['2', '1', '4', '7', '4', '8', '3', '6', '4', '8'] 0 = (false, 0) ∧
      parse_i32 ['-', '2', '1', '4', '7', '4', '8', '3', '6', '4', '9'] 0 = (false, 0) ∧
      parse_i32 ['-'] 0 = (false, 0) ∧
      parse_i32 ['+', '7'] 0 = (true, 7) :=
  fun s out =>
    ⟨parse_i8_eq s out, parse_i16_eq s out, parse_i32_eq s out, parse_i64_eq s out,
      by decide, by decide, by decide, by decide, by decide⟩

/-- Helper: on even-length input the conversion loop returns exactly the
reference pairwise decode, appending to `acc` the full byte list on success
and the decoded prefix on failure. -/
theorem hex_loop_spec (n : Nat) : ∀ s : List Char, s.length ≤ n → s.length % 2 = 0 →
    ∀ acc : List Nat,
      hex_loop s acc =
        (match hex_pair_values s with
         | some bs => (true, acc ++ bs)
         | none => (false, acc ++ hex_prefix_bytes s)) := by
  induction n with
  | zero =>
    intro s hl _ acc
    have hs : s = [] := List.length_eq_zero.mp (Nat.le_zero.mp hl)
    subst hs
    simp [hex_loop, hex_pair_values, hex_prefix_bytes]
  | succ n ih =>
    intro s hl he acc
    match s with
    | [] => simp [hex_loop, hex_pair_values, hex_prefix_bytes]
    | [c] => simp at he
    | c1 :: c2 :: rest =>
      have hr : rest.length ≤ n := by
        simp only [List.length_cons] at hl; omega
      have hre : rest.length % 2 = 0 := by
        simp only [List.length_cons] at he; omega
      cases h1 : ascii_to_hex c1 with
      | none => simp [hex_loop, hex_pair_values, hex_prefix_bytes, h1]
      | some hi =>
        cases h2 : ascii_to_hex c2 with
        | none => simp [hex_loop, hex_pair_values, hex_prefix_bytes, h1, h2]
        | some lo =>
          rw [show hex_loop (c1 :: c2 :: rest) acc =
              hex_loop rest (acc ++ [16 * hi + lo]) by simp [hex_loop, h1, h2]]
          rw [ih rest hr hre (acc ++ [16 * hi + lo])]
          cases hp : hex_pair_values rest with
          | some bs => simp [hex_pair_values, h1, h2, hp]
          | none => simp [hex_pair_values, hex_prefix_bytes, h1, h2, hp]

/-- Helper: a successful pairwise decode yields one byte per two input
characters. -/
theorem hex_pair_values_length (n : Nat) : ∀ s : List Char, s.length ≤ n →
    ∀ bs : List Nat, hex_pair_values s = some bs → 2 * bs.length = s.length := by
  induction n with
  | zero =>
    intro s hl bs hp
    have hs : s = [] := List.length_eq_zero.mp (Nat.le_zero.mp hl)
    subst hs
    simp [hex_pair_values] at hp
    simp [hp.symm]
  | succ n ih =>
    intro s hl bs hp
    match s with
    | [] =>
      simp [hex_pair_values] at hp
      simp [hp.symm]
    | [c] => simp [hex_pair_values] at hp
    | c1 :: c2 :: rest =>
      have hr : rest.length ≤ n := by
        simp only [List.length_cons] at hl; omega
      cases h1 : ascii_to_hex c1 with
      | none => simp [hex_pair_values, h1] at hp
      | some hi =>
        cases h2 : ascii_to_hex c2 with
        | none => simp [hex_pair_values, h1, h2] at hp
        | some lo =>
          cases hrest : hex_pair_values rest with
          | none => simp [hex_pair_values, h1, h2, hrest] at hp
          | some bs' =>
            have := ih rest hr bs' hrest
            simp [hex_pair_values, h1, h2, hrest] at hp
            subst hp
            simp only [List.length_cons]
            omega

/-- Helper: on even-length input the pairwise decode succeeds exactly when
every character is a hex digit. -/
theorem hex_pair_values_isSome (n : Nat) : ∀ s : List Char, s.length ≤ n →
    s.length % 2 = 0 →
    ((hex_pair_values s).isSome ↔ ∀ c ∈ s, (ascii_to_hex c).isSome = true) := by
  induction n with
  | zero =>
    intro s hl _
    have hs : s = [] := List.length_eq_zero.mp (Nat.le_zero.mp hl)
    subst hs
    simp [hex_pair_values]
  | succ n ih =>
    intro s hl he
    match s with
    | [] => simp [hex_pair_values]
    | [c] => simp at he
    | c1 :: c2 :: rest =>
      have hr : rest.length ≤ n := by
        simp only [List.length_cons] at hl; omega
      have hre : rest.length % 2 = 0 := by
        simp only [List.length_cons] at he; omega
      cases h1 : ascii_to_hex c1 with
      | none => simp [hex_pair_values, h1]
      | some hi =>
        cases h2 : ascii_to_hex c2 with
        | none => simp [hex_pair_values, h1, h2]
        | some lo =>
          cases hrest : hex_pair_values rest with
          | none =>
            have := ih rest hr hre
            rw [hrest] at this
            simp only [Option.isSome_none, Bool.false_eq_true, false_iff] at this
            simp [hex_pair_values, h1, h2, hrest, this]
          | some bs' =>
            have := ih rest hr hre
            rw [hrest] at this
            simp only [Option.isSome_some, true_iff] at this
            simp [hex_pair_values, h1, h2, hrest]
            exact this

/-- C6: `parse_hex_string` succeeds exactly on non-empty, even-length,
all-hex input decoding to at most `max_len` bytes; it then writes the
pairwise-decoded bytes (high nibble, then low nibble) at the output pointer
and reports `len / 2` bytes, one byte per pair; odd length always fails, and
a zero `max_len` always fails because the earlier checks force
`len / 2 ≥ 1`. -/
theorem cevo_c6_hex_string_decode :
    ∀ (s : List Char) (buf : List Nat) (off max_len out_len : Nat),
      (parse_hex_string s buf off max_len out_len =
        if s.length = 0 ∨ s.length % 2 = 1 ∨ max_len < s.length / 2
        then (false, buf, out_len)
        else
          match hex_pair_values s with
          | some bs => (true, write_list buf off bs, s.length / 2)
          | none => (false, write_list buf off (hex_prefix_bytes s), out_len)) ∧
      (match hex_pair_values s with
       | some bs => bs.length = s.length / 2
       | none => True) ∧
      ((parse_hex_string s buf off max_len out_len).1 = true ↔
        s ≠ [] ∧ s.length % 2 = 0 ∧ (∀ c ∈ s, (ascii_to_hex c).isSome = true) ∧
          s.length / 2 ≤ max_len) := by
  intro s buf off max_len out_len
  have heq : parse_hex_string s buf off max_len out_len =
      if s.length = 0 ∨ s.length % 2 = 1 ∨ max_len < s.length / 2
      then (false, buf, out_len)
      else
        match hex_pair_values s with
        | some bs => (true, write_list buf off bs, s.length / 2)
        | none => (false, write_list buf off (hex_prefix_bytes s), out_len) := by
    by_cases h0 : s.length = 0
    · simp [parse_hex_string, h0]
    · by_cases h1 : s.length % 2 = 1
      · simp [parse_hex_string, h0, h1]
      · by_cases h2 : max_len < s.length / 2
        · simp [parse_hex_string, h0, h1, h2]
        · have he : s.length % 2 = 0 := by omega
          rw [if_neg (by
            intro hc
            rcases hc with hc | hc | hc
            · exact h0 hc
            · exact h1 hc
            · exact h2 hc)]
          unfold parse_hex_string
          rw [if_neg h0, if_neg h1, if_neg (by omega : ¬max_len < s.length / 2)]
          rw [hex_loop_spec s.length s (le_refl _) he []]
          cases hp : hex_pair_values s with
          | some bs => simp [hp]
          | none => simp [hp]
  have hlen : (match hex_pair_values s with
      | some bs => bs.length = s.length / 2
      | none => True) := by
    cases hp : hex_pair_values s with
    | none => trivial
    | some bs =>
      have := hex_pair_values_length s.length s (le_refl _) bs hp
      omega
  refine ⟨heq, hlen, ?_⟩
  rw [heq]
  by_cases hbad : s.length = 0 ∨ s.length % 2 = 1 ∨ max_len < s.length / 2
  · rw [if_pos hbad]
    simp only [Bool.false_eq_true, false_iff]
    rintro ⟨hne, hev, _, hcap⟩
    rcases hbad with hc | hc | hc
    · exact hne (List.length_eq_zero.mp hc)
    · omega
    · omega
  · rw [if_neg hbad]
    push_neg at hbad
    obtain ⟨h0, h1, h2⟩ := hbad
    have he : s.length % 2 = 0 := by omega
    have hiff := hex_pair_values_isSome s.length s (le_refl _) he
    cases hp : hex_pair_values s with
    | some bs =>
      rw [hp] at hiff
      simp only [Option.isSome_some, true_iff] at hiff
      simp only [true_iff]
      exact ⟨fun hc => h0 (by simp [hc]), he, hiff, h2⟩
    | none =>
      rw [hp] at hiff
      simp only [Option.isSome_none, Bool.false_eq_true, false_iff] at hiff
      simp only [Bool.false_eq_true, false_iff]
      rintro ⟨_, _, hhex, _⟩
      exact hiff hhex

/-- Helper: once the token cap is reached the scan loop stops immediately. -/
theorem scan_loop_stop (l : List Char) (count : Nat) (in_tok : Bool)
    (acc : List (List Char)) (h : MAX_TOKENS ≤ count) :
    scan_loop l count in_tok acc = (acc, l, in_tok, count) := by
  cases l <;> simp [scan_loop, h]

/-- Helper: below the cap, scanning from inside a token records nothing until
the end of the token, so the scan may jump there directly. -/
theorem scan_loop_skip (l : List Char) : ∀ (count : Nat) (acc : List (List Char)),
    count < MAX_TOKENS →
    scan_loop l count true acc = scan_loop (l.dropWhile not_ws) count true acc := by
  induction l with
  | nil => intro count acc _; simp [List.dropWhile]
  | cons c rest ih =>
    intro count acc hc
    by_cases hw : is_ws c
    · have hnw : not_ws c = false := by simp [not_ws, hw]
      rw [List.dropWhile_cons_of_neg (by simp [hnw])]
    · have hnw : not_ws c = true := by simp [not_ws, hw]
      rw [List.dropWhile_cons_of_pos hnw]
      rw [show scan_loop (c :: rest) count true acc = scan_loop rest count true acc by
        simp [scan_loop, Nat.not_le.mpr hc, hw]]
      exact ih count acc hc

/-- Helper: a line has no words exactly when it is all whitespace. -/
theorem ws_words_nil_iff (l : List Char) :
    ws_words l = [] ↔ l.dropWhile is_ws = [] := by
  induction l with
  | nil => simp [ws_words]
  | cons c rest ih =>
    by_cases hw : is_ws c
    · rw [show ws_words (c :: rest) = ws_words rest by simp [ws_words, hw]]
      rw [List.dropWhile_cons_of_pos hw]
      exact ih
    · rw [show ws_words (c :: rest) =
          (c :: rest.takeWhile not_ws) :: ws_words (rest.dropWhile not_ws) by
        simp [ws_words, hw]]
      rw [List.dropWhile_cons_of_neg (by simp [hw])]
      simp

/-- Helper: the head of what `dropWhile` leaves fails the predicate. -/
theorem dropWhile_head_false (p : Char → Bool) (l : List Char) (w : Char)
    (t : List Char) (h : l.dropWhile p = w :: t) : p w = false := by
  induction l with
  | nil => simp [List.dropWhile] at h
  | cons c rest ih =>
    by_cases hc : p c
    · rw [List.dropWhile_cons_of_pos hc] at h
      exact ih h
    · rw [List.dropWhile_cons_of_neg hc] at h
      injection h with h1 _
      subst h1
      simpa using hc

/-- Main tokenizer characterization: from any in-range token count, the scan
loop followed by the epilogue succeeds exactly when the remaining words fit
under the cap, and then appends exactly those words. -/
theorem scan_finish_spec : ∀ (n : Nat) (l : List Char), l.length ≤ n →
    ∀ (count : Nat) (acc : List (List Char)), count ≤ MAX_TOKENS →
      tokens_finish (scan_loop l count false acc) =
        if count + (ws_words l).length ≤ MAX_TOKENS
        then some (acc ++ ws_words l) else none := by
  intro n
  induction n with
  | zero =>
    intro l hl count acc hcount
    have hnil : l = [] := List.length_eq_zero.mp (Nat.le_zero.mp hl)
    subst hnil
    simp [scan_loop, tokens_finish, ws_words, hcount]
  | succ n ih =>
    intro l hl count acc hcount
    cases l with
    | nil => simp [scan_loop, tokens_finish, ws_words, hcount]
    | cons c rest =>
      by_cases hcap : count = MAX_TOKENS
      · subst hcap
        rw [scan_loop_stop _ _ _ _ (le_refl _)]
        by_cases hw : (c :: rest).dropWhile is_ws = []
        · have hwz : ws_words (c :: rest) = [] := (ws_words_nil_iff _).mpr hw
          simp [tokens_finish, hw, hwz]
        · have hwz : ws_words (c :: rest) ≠ [] := fun h => hw ((ws_words_nil_iff _).mp h)
          have hpos : 0 < (ws_words (c :: rest)).length := List.length_pos.mpr hwz
          rw [if_neg (by omega)]
          simp [tokens_finish, hw]
      · have hlt : count < MAX_TOKENS := Nat.lt_of_le_of_ne hcount hcap
        have hrest : rest.length ≤ n := by
          simp only [List.length_cons] at hl; omega
        by_cases hw : is_ws c
        · rw [show scan_loop (c :: rest) count false acc =
              scan_loop rest count false acc by
            simp [scan_loop, Nat.not_le.mpr hlt, hw]]
          rw [ih rest hrest count acc hcount]
          rw [show ws_words (c :: rest) = ws_words rest by simp [ws_words, hw]]
        · have hwords : ws_words (c :: rest) =
              (c :: rest.takeWhile not_ws) :: ws_words (rest.dropWhile not_ws) := by
            simp [ws_words, hw]
          rw [show scan_loop (c :: rest) count false acc =
              scan_loop rest (count + 1) true (acc ++ [c :: rest.takeWhile not_ws]) by
            simp [scan_loop, Nat.not_le.mpr hlt, hw]]
          by_cases hcap2 : count + 1 = MAX_TOKENS
          · rw [hcap2, scan_loop_stop _ _ _ _ (le_refl _)]
            by_cases hz : ws_words (rest.dropWhile not_ws) = []
            · have hz2 : (rest.dropWhile not_ws).dropWhile is_ws = [] :=
                (ws_words_nil_iff _).mp hz
              rw [hwords, hz]
              rw [if_pos (by simp only [List.length_cons, List.length_nil]; omega)]
              simp [tokens_finish, hz2]
            · have hz2 : (rest.dropWhile not_ws).dropWhile is_ws ≠ [] :=
                fun h => hz ((ws_words_nil_iff _).mpr h)
              have hpos : 0 < (ws_words (rest.dropWhile not_ws)).length :=
                List.length_pos.mpr hz
              rw [hwords]
              rw [if_neg (by simp only [List.length_cons]; omega)]
              simp [tokens_finish, hz2]
          · have hlt2 : count + 1 < MAX_TOKENS := Nat.lt_of_le_of_ne (by omega) hcap2
            rw [scan_loop_skip rest (count + 1) _ hlt2]
            cases hdrop : rest.dropWhile not_ws with
            | nil =>
              rw [hwords, hdrop]
              rw [show ws_words ([] : List Char) = [] by simp [ws_words]]
              rw [if_pos (by simp only [List.length_cons, List.length_nil]; omega)]
              simp [scan_loop, tokens_finish, hcap2]
            | cons w ws2 =>
              have hwsw : is_ws w = true := by
                have h3 := dropWhile_head_false not_ws rest w ws2 hdrop
                simpa [not_ws] using h3
              have hws2 : ws2.length ≤ n := by
                have h4 : (rest.dropWhile not_ws).length ≤ rest.length :=
                  dropWhile_length_le _ _
                rw [hdrop] at h4
                simp only [List.length_cons] at h4
                omega
              rw [show scan_loop (w :: ws2) (count + 1) true
                    (acc ++ [c :: rest.takeWhile not_ws]) =
                  scan_loop ws2 (count + 1) false
                    (acc ++ [c :: rest.takeWhile not_ws]) by
                simp [scan_loop, Nat.not_le.mpr hlt2, hwsw]]
              rw [ih ws2 hws2 (count + 1) _ (by omega)]
              rw [hwords, hdrop]
              rw [show ws_words (w :: ws2) = ws_words ws2 by simp [ws_words, hwsw]]
              rw [show (acc ++ [c :: rest.takeWhile not_ws]) ++ ws_words ws2 =
                  acc ++ ((c :: rest.takeWhile not_ws) :: ws_words ws2) by simp]
              exact if_congr (by simp only [List.length_cons]; omega) rfl rfl

/-- C7: tokenization succeeds exactly when the line's whitespace-separated
words fit in `MAX_TOKENS` (returning precisely those words, so a line with
exactly `MAX_TOKENS` words plus trailing whitespace succeeds and pure
trailing whitespace never fails the call), and fails exactly when, the cap
being reached, a further word — non-whitespace content beyond the last
counted token — remains. -/
theorem cevo_c7_tokenizer_cap :
    ∀ line : List Char,
      (parse_line_to_tokens (some line) =
        if (ws_words line).length ≤ MAX_TOKENS then some (ws_words line) else none) ∧
      (parse_line_to_tokens (some line) = none ↔
        MAX_TOKENS < (ws_words line).length) := by
  intro line
  have h := scan_finish_spec line.length line (le_refl _) 0 []
    (by norm_num [MAX_TOKENS])
  simp only [Nat.zero_add, List.nil_append] at h
  have heq : parse_line_to_tokens (some line) =
      if (ws_words line).length ≤ MAX_TOKENS then some (ws_words line) else none := by
    unfold parse_line_to_tokens
    exact h
  refine ⟨heq, ?_⟩
  rw [heq]
  by_cases hc : (ws_words line).length ≤ MAX_TOKENS
  · rw [if_pos hc]
    constructor
    · intro hx; exact absurd hx (Option.some_ne_none _)
    · intro hx; omega
  · rw [if_neg hc]
    constructor
    · intro _; omega
    · intro _; rfl

/-- Helper: every run of the dispatcher either fails with no handler call, or
performs exactly one handler call whose result becomes the dispatch
result. -/
theorem dispatch_shape (tbl : List ce_signature_st)
    (inv : ce_signature_st → List CeArgValue → Bool) (line : Option (List Char)) :
    ce_dispatch_from_line tbl inv line = (false, []) ∨
      ∃ sig args, ce_dispatch_from_line tbl inv line = (inv sig args, [args]) := by
  unfold ce_dispatch_from_line ce_dispatch_core
  cases line with
  | none => left; rfl
  | some l =>
    by_cases hlen : MAX_LINE_BUF_SIZE ≤ l.length
    · left; simp [hlen]
    · cases htk : parse_line_to_tokens (some l) with
      | none => left; simp [hlen, htk]
      | some tokens =>
        cases tokens with
        | nil => left; simp [hlen, htk]
        | cons t0 ts =>
          cases hsig : lookup_signature_by_hash tbl (ce_hash_calculate (some t0)) with
          | none => left; simp [hlen, htk, hsig]
          | some sig =>
            by_cases hva : validate_argument_count (t0 :: ts).length sig
            · simp only [hlen, if_neg, ite_false, htk, hsig, hva, Bool.not_true]
              unfold dispatch_command
              rcases hp : parse_arguments sig (t0 :: ts)
                  { buffer := List.replicate MAX_ARG_CONTENT_SIZE 0, used := 0 }
                with ⟨o, sc⟩
              cases o with
              | none => left; simp [hlen, hp]
              | some args =>
                right
                exact ⟨sig, args, by simp [hlen, hp]⟩
            · left
              have hva2 : validate_argument_count (ts.length + 1) sig = false := by
                simpa using hva
              simp [hlen, htk, hsig, hva2]

/-- Helper: an all-whitespace line tokenizes to the empty token list. -/
theorem parse_line_ws_only (l : List Char) (hws : ∀ c ∈ l, is_ws c = true) :
    parse_line_to_tokens (some l) = some [] := by
  have hdw : l.dropWhile is_ws = [] := by
    induction l with
    | nil => simp [List.dropWhile]
    | cons c rest ih =>
      rw [List.dropWhile_cons_of_pos (hws c (List.mem_cons_self c rest))]
      exact ih fun x hx => hws x (List.mem_cons_of_mem c hx)
  have hwz : ws_words l = [] := (ws_words_nil_iff l).mpr hdw
  have h := scan_finish_spec l.length l (le_refl _) 0 [] (by norm_num [MAX_TOKENS])
  simp only [parse_line_to_tokens]
  rw [h, hwz]
  simp [MAX_TOKENS]

/-- C2: a null, whitespace-only, over-length, or unknown-command line makes
`ce_dispatch_from_line` return `false` with zero handler invocations; in
general the validation chain short-circuits — any pre-invocation failure
yields `(false, no invocations)` — and the handler runs at most once per
call. -/
theorem cevo_c2_dispatch_short_circuit :
    ∀ (tbl : List ce_signature_st) (inv : ce_signature_st → List CeArgValue → Bool),
      ce_dispatch_from_line tbl inv none = (false, []) ∧
      (∀ l : List Char,
        ((∀ c ∈ l, is_ws c = true) ∨ MAX_LINE_BUF_SIZE ≤ l.length ∨
          (∀ t ts, ws_words l = t :: ts →
            ∀ sig ∈ tbl, sig.hash_u32 ≠ ce_hash_calculate (some t))) →
        ce_dispatch_from_line tbl inv (some l) = (false, [])) ∧
      (∀ line, (ce_dispatch_from_line tbl inv line).2.length ≤ 1) ∧
      (∀ line, ce_dispatch_from_line tbl inv line = (false, []) ∨
        ∃ sig args, ce_dispatch_from_line tbl inv line = (inv sig args, [args])) := by
  intro tbl inv
  refine ⟨rfl, ?_, ?_, fun line => dispatch_shape tbl inv line⟩
  · intro l hl
    by_cases hlen : MAX_LINE_BUF_SIZE ≤ l.length
    · unfold ce_dispatch_from_line ce_dispatch_core
      simp [hlen]
    · rcases hl with hws | hl2 | hunk
      · have htk := parse_line_ws_only l hws
        unfold ce_dispatch_from_line ce_dispatch_core
        simp [hlen, htk]
      · exact absurd hl2 hlen
      · have hwl := scan_finish_spec l.length l (le_refl _) 0 []
          (by norm_num [MAX_TOKENS])
        simp only [Nat.zero_add, List.nil_append] at hwl
        by_cases hcap : (ws_words l).length ≤ MAX_TOKENS
        · rw [if_pos hcap] at hwl
          cases hwords : ws_words l with
          | nil =>
            have htk : parse_line_to_tokens (some l) = some [] := by
              simp only [parse_line_to_tokens]
              rw [hwl, hwords]
            unfold ce_dispatch_from_line ce_dispatch_core
            simp [hlen, htk]
          | cons t0 ts =>
            have htk : parse_line_to_tokens (some l) = some (t0 :: ts) := by
              simp only [parse_line_to_tokens]
              rw [hwl, hwords]
            have hnone : lookup_signature_by_hash tbl
                (ce_hash_calculate (some t0)) = none := by
              unfold lookup_signature_by_hash
              rw [List.find?_eq_none]
              intro sig hsig
              simp only [decide_eq_true_eq]
              exact hunk t0 ts hwords sig hsig
            unfold ce_dispatch_from_line ce_dispatch_core
            simp [hlen, htk, hnone]
        · have htk : parse_line_to_tokens (some l) = none := by
            simp only [parse_line_to_tokens]
            rw [hwl, if_neg hcap]
          unfold ce_dispatch_from_line ce_dispatch_core
          simp [hlen, htk]
  · intro line
    rcases dispatch_shape tbl inv line with h | ⟨sig, args, h⟩ <;> simp [h]

/-- Witness for `cevo_c2_dispatch_short_circuit`: the whitespace-only line
`" "` and the null line both fail with zero invocations against the empty
table. -/
theorem cevo_c2_witness :
    ce_dispatch_from_line [] (fun _ _ => true) (some [' ']) = (false, []) ∧
    ce_dispatch_from_line [] (fun _ _ => true) none = (false, []) := by
  have h := cevo_c2_dispatch_short_circuit [] (fun _ _ => true)
  exact ⟨h.2.1 [' '] (Or.inl (by decide)), h.1⟩

/-- Table for the scratch-overflow run: one command (hash of `"hx2"`) whose
signature declares two binary (hex) arguments — the shape of generated
commands such as the demo's `cat_mixed`, which declares three. -/
def c1_table : List ce_signature_st :=
  [{ hash_u32 := ce_hash_calculate (some ['h', 'x', '2']),
     types_e := [CeArgType.uint8ptr, CeArgType.uint8ptr],
     type_count_u8 := 2 }]

/-- The overflowing line: `"hx2 "`, then 128 `'0'`s (64 decoded bytes, which
fill the scratch buffer exactly), then `" AA"` (one more decoded byte). -/
def c1_line : List Char :=
  ['h', 'x', '2', ' '] ++ List.replicate 128 '0' ++ [' ', 'A', 'A']

set_option maxRecDepth 100000 in
/-- C1 (violated by the code): `parse_value_by_type` passes
`MAX_ARG_CONTENT_SIZE` to `parse_hex_string` instead of the remaining
capacity `MAX_ARG_CONTENT_SIZE - used`, so dispatching `c1_line` against a
two-binary-argument signature *succeeds* and hands the handler a second
binary argument spanning scratch offsets `[64, 65)`: the cumulative decoded
bytes (65) exceed the scratch capacity `MAX_ARG_CONTENT_SIZE = 64`, and in C
the second decode stores one byte past the end of `scratch->buffer`. -/
theorem cevo_c1_scratch_overflow :
    ce_dispatch_from_line c1_table (fun _ _ => true) (some c1_line) =
      (true, [[CeArgValue.bytes 0 64, CeArgValue.bytes 64 1]]) ∧
    MAX_ARG_CONTENT_SIZE < 64 + 1 := by
  constructor
  · decide
  · decide

/-- Helper: storing a byte list at addresses `[b, b + length)` leaves every
address outside that window unchanged. -/
theorem mstores_outside (vs : List Nat) : ∀ (m : Mem) (b a : Nat),
    (a < b ∨ b + vs.length ≤ a) → mstores m b vs a = m a := by
  induction vs with
  | nil => intro m b a _; rfl
  | cons v vs ih =>
    intro m b a h
    show mstores (fun x => if x = b then v else m x) (b + 1) vs a = m a
    rw [ih _ (b + 1) a (by simp only [List.length_cons] at h; omega)]
    have : a ≠ b := by simp only [List.length_cons] at h; omega
    simp [this]

/-- Helper: the instrumented argument loop computes the same result and
scratch state as `parse_args_loop`. -/
theorem parse_args_loop_mem_result (tokens : List (List Char)) :
    ∀ (tys : List CeArgType) (i : Nat) (scratch : Scratch) (acc : List CeArgValue)
      (m : Mem) (ok : Bool),
      (parse_args_loop_mem tokens tys i scratch acc m ok).1 =
        parse_args_loop tokens tys i scratch acc := by
  intro tys
  induction tys with
  | nil => intro i scratch acc m ok; rfl
  | cons ty tys ih =>
    intro i scratch acc m ok
    cases ht : tokens[i + ARG_OFFSET]? with
    | none => simp [parse_args_loop_mem, parse_args_loop, List.get?_eq_getElem?, ht]
    | some tok =>
      rcases hp : parse_value_by_type ty tok scratch with ⟨o, scratch2⟩
      cases o with
      | none => simp [parse_args_loop_mem, parse_args_loop, List.get?_eq_getElem?, ht, hp]
      | some v =>
        simp only [parse_args_loop_mem, parse_args_loop, List.get?_eq_getElem?, ht, hp]
        exact ih (i + 1) scratch2 (acc ++ [v]) _ _

/-- Helper: once the in-bounds flag is false it stays false. -/
theorem parse_args_loop_mem_ok_false (tokens : List (List Char)) :
    ∀ (tys : List CeArgType) (i : Nat) (scratch : Scratch) (acc : List CeArgValue)
      (m : Mem),
      (parse_args_loop_mem tokens tys i scratch acc m false).2.2 = false := by
  intro tys
  induction tys with
  | nil => intro i scratch acc m; rfl
  | cons ty tys ih =>
    intro i scratch acc m
    cases ht : tokens[i + ARG_OFFSET]? with
    | none => simp [parse_args_loop_mem, List.get?_eq_getElem?, ht]
    | some tok =>
      rcases hp : parse_value_by_type ty tok scratch with ⟨o, scratch2⟩
      cases o with
      | none => simp [parse_args_loop_mem, List.get?_eq_getElem?, ht, hp]
      | some v =>
        simp only [parse_args_loop_mem, List.get?_eq_getElem?, ht, hp, Bool.false_and]
        exact ih (i + 1) scratch2 (acc ++ [v]) _

/-- Helper frame property of the instrumented argument loop: when every
decode stayed within the scratch capacity (final flag true), no store lands
outside the scratch buffer's address window. -/
theorem parse_args_loop_mem_frame (tokens : List (List Char)) :
    ∀ (tys : List CeArgType) (i : Nat) (scratch : Scratch) (acc : List CeArgValue)
      (m : Mem) (a : Nat),
      (parse_args_loop_mem tokens tys i scratch acc m true).2.2 = true →
      (a < SCRATCH_BASE ∨ SCRATCH_BASE + MAX_ARG_CONTENT_SIZE ≤ a) →
      (parse_args_loop_mem tokens tys i scratch acc m true).2.1 a = m a := by
  intro tys
  induction tys with
  | nil => intro i scratch acc m a _ _; rfl
  | cons ty tys ih =>
    intro i scratch acc m a hok ha
    cases ht : tokens[i + ARG_OFFSET]? with
    | none => simp [parse_args_loop_mem, List.get?_eq_getElem?, ht]
    | some tok =>
      rcases hp : parse_value_by_type ty tok scratch with ⟨o, scratch2⟩
      simp only [parse_args_loop_mem, List.get?_eq_getElem?, ht, hp, Bool.true_and] at hok ⊢
      cases o with
      | none =>
        simp only [decide_eq_true_eq] at hok
        apply mstores_outside
        rcases ha with ha | ha
        · left; omega
        · right; omega
      | some v =>
        by_cases hcond : scratch.used +
            (if ty = CeArgType.uint8ptr ∧ hex_checks_pass tok = true
             then (hex_loop tok []).2 else []).length ≤ MAX_ARG_CONTENT_SIZE
        · rw [show (decide (scratch.used +
              (if ty = CeArgType.uint8ptr ∧ hex_checks_pass tok = true
               then (hex_loop tok []).2 else []).length ≤ MAX_ARG_CONTENT_SIZE)) = true
              from decide_eq_true hcond] at hok ⊢
          rw [ih (i + 1) scratch2 (acc ++ [v]) _ a hok ha]
          apply mstores_outside
          rcases ha with ha | ha
          · left; omega
          · right; omega
        · rw [show (decide (scratch.used +
              (if ty = CeArgType.uint8ptr ∧ hex_checks_pass tok = true
               then (hex_loop tok []).2 else []).length ≤ MAX_ARG_CONTENT_SIZE)) = false
              from decide_eq_false hcond] at hok
          rw [parse_args_loop_mem_ok_false tokens tys (i + 1) scratch2 (acc ++ [v]) _] at hok
          exact absurd hok (by simp)

/-- Helper: the instrumented dispatcher computes the same result as the pure
one at the `dispatch_command` level. -/
theorem dispatch_command_mem_result (inv : ce_signature_st → List CeArgValue → Bool)
    (sig : ce_signature_st) (tokens : List (List Char)) (m : Mem) :
    (dispatch_command_mem inv sig tokens m).1 = (dispatch_command inv sig tokens).1 := by
  unfold dispatch_command_mem dispatch_command parse_arguments_mem parse_arguments
  by_cases hc : MAX_PARSABLE_ARGUMENTS < sig.type_count_u8
  · simp [hc]
  · simp only [if_neg hc]
    have h := parse_args_loop_mem_result tokens (sig.types_e.take sig.type_count_u8) 0
      { buffer := List.replicate MAX_ARG_CONTENT_SIZE 0, used := 0 } [] m true
    rcases hm : parse_args_loop_mem tokens (sig.types_e.take sig.type_count_u8) 0
        { buffer := List.replicate MAX_ARG_CONTENT_SIZE 0, used := 0 } [] m true
      with ⟨⟨o, sc⟩, m2, ok⟩
    rw [hm] at h
    rw [← h]
    cases o <;> rfl

/-- Helper frame property at the `dispatch_command` level: a run whose
decodes all stayed in bounds changes nothing outside the scratch buffer's
address window. -/
theorem dispatch_command_mem_frame (inv : ce_signature_st → List CeArgValue → Bool)
    (sig : ce_signature_st) (tokens : List (List Char)) (m : Mem) (a : Nat) :
    (dispatch_command_mem inv sig tokens m).2.2 = true →
    (a < SCRATCH_BASE ∨ SCRATCH_BASE + MAX_ARG_CONTENT_SIZE ≤ a) →
    (dispatch_command_mem inv sig tokens m).2.1 a = m a := by
  unfold dispatch_command_mem parse_arguments_mem
  by_cases hc : MAX_PARSABLE_ARGUMENTS < sig.type_count_u8
  · intro _ _
    simp [hc]
  · simp only [if_neg hc]
    rcases hm : parse_args_loop_mem tokens (sig.types_e.take sig.type_count_u8) 0
        { buffer := List.replicate MAX_ARG_CONTENT_SIZE 0, used := 0 } [] m true
      with ⟨⟨o, sc⟩, m2, ok⟩
    have hmem := parse_args_loop_mem_frame tokens (sig.types_e.take sig.type_count_u8) 0
      { buffer := List.replicate MAX_ARG_CONTENT_SIZE 0, used := 0 } [] m a
    rw [hm] at hmem
    cases o with
    | none => exact fun hok ha => hmem hok ha
    | some args => exact fun hok ha => hmem hok ha

/-- Helper: the widened `line_buf` contents fill the whole 256-byte
region. -/
theorem line_buf_bytes_length (l : List Char) (h : l.length ≤ MAX_LINE_BUF_SIZE) :
    (line_buf_bytes l).length = MAX_LINE_BUF_SIZE := by
  simp only [line_buf_bytes, List.length_append, List.length_map,
    List.length_replicate]
  omega

/-- C8 (corrected): the original universal frame claim fails — on the C1
overflow inputs the hex decode stores past the scratch object
(`cevo_c8_overflow_escapes_scratch`).  Amended statement: the instrumented
call agrees with the pure dispatcher, and on every run in which each binary
argument's decoded bytes stayed within the scratch capacity (the in-bounds
flag is true — precisely the runs not hitting the C1 bug), every store of
the call lands in the local `line_buf` region or the local scratch region,
so every byte outside the two call-local objects — in particular every byte
of the caller's line, which lives below `LINE_BUF_BASE` — is unchanged. -/
theorem cevo_c8_frame_no_overflow :
    ∀ (tbl : List ce_signature_st) (inv : ce_signature_st → List CeArgValue → Bool)
      (line : Option (List Char)) (m : Mem),
      ((ce_dispatch_from_line_mem tbl inv line m).1 =
        ce_dispatch_from_line tbl inv line) ∧
      (∀ a : Nat,
        (ce_dispatch_from_line_mem tbl inv line m).2.2 = true →
        ¬(LINE_BUF_BASE ≤ a ∧ a < LINE_BUF_BASE + MAX_LINE_BUF_SIZE) →
        ¬(SCRATCH_BASE ≤ a ∧ a < SCRATCH_BASE + MAX_ARG_CONTENT_SIZE) →
        (ce_dispatch_from_line_mem tbl inv line m).2.1 a = m a) := by
  intro tbl inv line m
  cases line with
  | none => exact ⟨rfl, fun a _ _ _ => rfl⟩
  | some l =>
    by_cases hlen : MAX_LINE_BUF_SIZE ≤ l.length
    · constructor
      · have h1 : (ce_dispatch_from_line_mem tbl inv (some l) m).1 = (false, []) := by
          simp [ce_dispatch_from_line_mem, hlen]
        have h2 : ce_dispatch_from_line tbl inv (some l) = (false, []) := by
          unfold ce_dispatch_from_line ce_dispatch_core
          simp [hlen]
        rw [h1, h2]
      · intro a _ hb _
        have h1 : (ce_dispatch_from_line_mem tbl inv (some l) m).2.1 =
            mstores m LINE_BUF_BASE (List.replicate MAX_LINE_BUF_SIZE 0) := by
          simp [ce_dispatch_from_line_mem, hlen]
        rw [h1]
        apply mstores_outside
        simp only [List.length_replicate]
        omega
    · have hl2 : l.length ≤ MAX_LINE_BUF_SIZE := by omega
      have hm1 : ∀ a : Nat,
          ¬(LINE_BUF_BASE ≤ a ∧ a < LINE_BUF_BASE + MAX_LINE_BUF_SIZE) →
          mstores (mstores m LINE_BUF_BASE (List.replicate MAX_LINE_BUF_SIZE 0))
            LINE_BUF_BASE (line_buf_bytes l) a = m a := by
        intro a hb
        rw [mstores_outside _ _ _ _ (by rw [line_buf_bytes_length l hl2]; omega)]
        exact mstores_outside _ _ _ _ (by simp only [List.length_replicate]; omega)
      cases htk : parse_line_to_tokens (some l) with
      | none =>
        have hrun : ce_dispatch_from_line_mem tbl inv (some l) m =
            ((false, []),
              mstores (mstores m LINE_BUF_BASE (List.replicate MAX_LINE_BUF_SIZE 0))
                LINE_BUF_BASE (line_buf_bytes l), true) := by
          simp [ce_dispatch_from_line_mem, hlen, htk]
        have hpure : ce_dispatch_from_line tbl inv (some l) = (false, []) := by
          unfold ce_dispatch_from_line ce_dispatch_core
          simp [hlen, htk]
        rw [hrun, hpure]
        exact ⟨rfl, fun a _ hb _ => hm1 a hb⟩
      | some tokens =>
        cases tokens with
        | nil =>
          have hrun : ce_dispatch_from_line_mem tbl inv (some l) m =
              ((false, []),
                mstores (mstores m LINE_BUF_BASE (List.replicate MAX_LINE_BUF_SIZE 0))
                  LINE_BUF_BASE (line_buf_bytes l), true) := by
            simp [ce_dispatch_from_line_mem, hlen, htk]
          have hpure : ce_dispatch_from_line tbl inv (some l) = (false, []) := by
            unfold ce_dispatch_from_line ce_dispatch_core
            simp [hlen, htk]
          rw [hrun, hpure]
          exact ⟨rfl, fun a _ hb _ => hm1 a hb⟩
        | cons t0 ts =>
          cases hsig : lookup_signature_by_hash tbl (ce_hash_calculate (some t0)) with
          | none =>
            have hrun : ce_dispatch_from_line_mem tbl inv (some l) m =
                ((false, []),
                  mstores (mstores m LINE_BUF_BASE (List.replicate MAX_LINE_BUF_SIZE 0))
                    LINE_BUF_BASE (line_buf_bytes l), true) := by
              simp [ce_dispatch_from_line_mem, hlen, htk, hsig]
            have hpure : ce_dispatch_from_line tbl inv (some l) = (false, []) := by
              unfold ce_dispatch_from_line ce_dispatch_core
              simp [hlen, htk, hsig]
            rw [hrun, hpure]
            exact ⟨rfl, fun a _ hb _ => hm1 a hb⟩
          | some sig =>
            by_cases hva : validate_argument_count (t0 :: ts).length sig
            · have hva1 : validate_argument_count (ts.length + 1) sig = true := by
                simpa using hva
              have hrun : ce_dispatch_from_line_mem tbl inv (some l) m =
                  dispatch_command_mem inv sig (t0 :: ts)
                    (mstores (mstores m LINE_BUF_BASE
                      (List.replicate MAX_LINE_BUF_SIZE 0))
                      LINE_BUF_BASE (line_buf_bytes l)) := by
                simp [ce_dispatch_from_line_mem, hlen, htk, hsig, hva1]
              have hpure : ce_dispatch_from_line tbl inv (some l) =
                  (dispatch_command inv sig (t0 :: ts)).1 := by
                unfold ce_dispatch_from_line ce_dispatch_core
                simp [hlen, htk, hsig, hva1]
              constructor
              · rw [hrun, hpure]
                exact dispatch_command_mem_result inv sig (t0 :: ts) _
              · intro a hok hb hs
                rw [hrun] at hok ⊢
                rw [dispatch_command_mem_frame inv sig (t0 :: ts) _ a hok (by omega)]
                exact hm1 a hb
            · have hva2 : validate_argument_count (ts.length + 1) sig = false := by
                simpa using hva
              have hrun : ce_dispatch_from_line_mem tbl inv (some l) m =
                  ((false, []),
                    mstores (mstores m LINE_BUF_BASE
                      (List.replicate MAX_LINE_BUF_SIZE 0))
                      LINE_BUF_BASE (line_buf_bytes l), true) := by
                simp [ce_dispatch_from_line_mem, hlen, htk, hsig, hva2]
              have hpure : ce_dispatch_from_line tbl inv (some l) = (false, []) := by
                unfold ce_dispatch_from_line ce_dispatch_core
                simp [hlen, htk, hsig, hva2]
              rw [hrun, hpure]
              exact ⟨rfl, fun a _ hb _ => hm1 a hb⟩

set_option maxRecDepth 400000 in
/-- Counterexample refuting claim C8 as stated: on the concrete, reachable
C1 overflow input the call's in-bounds flag is false and the hex decode has
stored the byte `0xAA` at the address one past the end of the scratch
object — outside both the `line_buf` region and the scratch region — so
hex decoding does *not* write only into the call-local scratch buffer, and
the C program's corresponding store past `scratch->buffer` is undefined
behavior with no guarantee of being invisible to the caller. -/
theorem cevo_c8_overflow_escapes_scratch :
    (ce_dispatch_from_line_mem c1_table (fun _ _ => true) (some c1_line)
      (fun _ => 0)).2.2 = false ∧
    (ce_dispatch_from_line_mem c1_table (fun _ _ => true) (some c1_line)
      (fun _ => 0)).2.1 (SCRATCH_BASE + MAX_ARG_CONTENT_SIZE) = 170 ∧
    (fun _ => (0 : Nat)) (SCRATCH_BASE + MAX_ARG_CONTENT_SIZE) = 0 ∧
    ¬(LINE_BUF_BASE ≤ SCRATCH_BASE + MAX_ARG_CONTENT_SIZE ∧
      SCRATCH_BASE + MAX_ARG_CONTENT_SIZE < LINE_BUF_BASE + MAX_LINE_BUF_SIZE) ∧
    ¬(SCRATCH_BASE ≤ SCRATCH_BASE + MAX_ARG_CONTENT_SIZE ∧
      SCRATCH_BASE + MAX_ARG_CONTENT_SIZE < SCRATCH_BASE + MAX_ARG_CONTENT_SIZE) := by
  refine ⟨by decide, by decide, rfl, by decide, by decide⟩

set_option maxRecDepth 400000 in
/-- Witness for `cevo_c8_frame_no_overflow`: the non-overflowing line
`"hx2 AA BB"` (two one-byte binary arguments) leaves the caller's byte at
address 0 unchanged, and the instrumented run agrees with the pure
dispatcher. -/
theorem cevo_c8_frame_witness :
    (ce_dispatch_from_line_mem c1_table (fun _ _ => true)
      (some ['h', 'x', '2', ' ', 'A', 'A', ' ', 'B', 'B']) (fun _ => 0)).2.1 0 = 0 ∧
    (ce_dispatch_from_line_mem c1_table (fun _ _ => true)
      (some ['h', 'x', '2', ' ', 'A', 'A', ' ', 'B', 'B']) (fun _ => 0)).1 =
      ce_dispatch_from_line c1_table (fun _ _ => true)
        (some ['h', 'x', '2', ' ', 'A', 'A', ' ', 'B', 'B']) := by
  have h := cevo_c8_frame_no_overflow c1_table (fun _ _ => true)
    (some ['h', 'x', '2', ' ', 'A', 'A', ' ', 'B', 'B']) (fun _ => 0)
  exact ⟨h.2 0 (by decide) (by decide) (by decide), h.1⟩
